import Mathlib

/-!
OpenFlow 1.3 flow codec (`ofp13/flow.go`).

A shallow embedding of the OXM, Match, instruction and FlowMod wire codec of
`ofp13/flow.go`, with the action records and the Bucket of `TestBucket`
modelled from the specification.

* A byte is a natural number below 256; a Go byte slice is a `List Nat`
  (a nil slice and an empty slice are both the empty list, as `len` and every
  read and write of the source treat them alike).
* Unsigned machine integers are natural numbers; every conversion of the
  source that can wrap (`uint8(..)`, `uint16(..)`, `OXMField(..)`) is written
  with an explicit remainder.
* An `io.Reader` is the list of bytes still to be read; an `io.Writer` is an
  in-memory byte sink that accepts every write.
* A `ReadFrom` method mutates its receiver and returns `(n, err)`; here it
  takes the receiver and the reader and returns the receiver after the call,
  the reader after the call, the count and the error.
-/

namespace ofp13

/-- Failure kinds of the codec. The source only ever propagates the error of a
short read; `ValueTooLarge` is returned only by the parts modelled from the
spec (action records and buckets). -/
inductive CodecError where
  | TruncatedInput
  | ValueTooLarge
  deriving DecidableEq, Repr

deriving instance DecidableEq for Except

/-- Outcome of a `ReadFrom` call: the receiver after the call, the reader after
the call, the returned byte count and the returned error. -/
structure ReadResult (α : Type) where
  recv : α
  rest : List Nat
  n : Nat
  err : Option CodecError
  deriving DecidableEq, Repr

namespace binary

/-- Modelled from the spec: the primitive codec of package `encoding/binary`
(not among the sources), "big-endian fixed-width integer read/write". The
big-endian value of a sequence of bytes. -/
def beUint (bs : List Nat) : Nat :=
  bs.foldl (fun acc b => acc * 256 + b) 0

/-- Modelled from the spec: the primitive codec of package `encoding/binary`
(not among the sources). Writing a `uint8`. -/
def putUint8 (v : Nat) : List Nat := [v % 256]

/-- Modelled from the spec: the primitive codec of package `encoding/binary`
(not among the sources). Writing a `uint16` in big-endian order. -/
def putUint16 (v : Nat) : List Nat := [v / 256 % 256, v % 256]

/-- Modelled from the spec: the primitive codec of package `encoding/binary`
(not among the sources). Writing a `uint32` in big-endian order. -/
def putUint32 (v : Nat) : List Nat :=
  [v / 16777216 % 256, v / 65536 % 256, v / 256 % 256, v % 256]

/-- Modelled from the spec: the primitive codec of package `encoding/binary`
(not among the sources). Writing a `uint64` in big-endian order. -/
def putUint64 (v : Nat) : List Nat :=
  [v / 72057594037927936 % 256, v / 281474976710656 % 256, v / 1099511627776 % 256,
    v / 4294967296 % 256, v / 16777216 % 256, v / 65536 % 256, v / 256 % 256, v % 256]

/-- Modelled from the spec: the "fixed-size zero-padding blocks" `pad1` ..
`pad4` of the primitive codec (their declarations are not among the sources):
`k` zero bytes. -/
def pad (k : Nat) : List Nat := List.replicate k 0

/-- Modelled from the spec: `binary.Read` of package `encoding/binary` (not
among the sources) into a destination of `k` bytes, the "read a whole value,
then interpret bytes" helper: when `k` bytes are available they are consumed
and returned with the remaining reader; when "fewer bytes remain than
declared" the read fails (`TruncatedInput`) and nothing is consumed. -/
def Read (r : List Nat) (k : Nat) : Option (List Nat × List Nat) :=
  if k ≤ r.length then some (r.take k, r.drop k) else none

/-- Modelled from the spec: `binary.ReadSlice` of package `encoding/binary`
(not among the sources): reads the destinations, given by their widths in
bytes, one after the other as big-endian integers; fails when the input is
shorter than the destinations together. -/
def ReadSlice (r : List Nat) : List Nat → Option (List Nat × List Nat)
  | [] => some ([], r)
  | w :: ws =>
    match Read r w with
    | none => none
    | some (bs, r1) =>
      match ReadSlice r1 ws with
      | none => none
      | some (vs, r2) => some (beUint bs :: vs, r2)

/-- Modelled from the spec: `binary.WriteSlice` and `binary.Write` of package
`encoding/binary` (not among the sources): the already serialised elements
are written one after the other; the in-memory sink accepts every write. -/
def WriteSlice (elems : List (List Nat)) : Except CodecError (List Nat) :=
  .ok elems.flatten

end binary

/-- The type `OXM` of the source: class (`uint16`), field (`uint8`), mask and
value. -/
structure OXM where
  Class : Nat
  Field : Nat
  Mask : List Nat
  Value : List Nat
  deriving DecidableEq, Repr

/-- The zero value `var oxm OXM`. -/
def OXM.zero : OXM := ⟨0, 0, [], []⟩

/-- The type `Match` of the source: type (`uint16`) and the OXM entries. -/
structure Match where
  Typ : Nat
  OXMFields : List OXM
  deriving DecidableEq, Repr

/-- The zero value `var m Match`. -/
def Match.zero : Match := ⟨0, []⟩

/-- Method `(*OXM).ReadFrom`. -/
def OXM.ReadFrom (oxm : OXM) (r : List Nat) : ReadResult OXM :=
  -- n, err = binary.ReadSlice(r, ..., {&oxm.Class, &oxm.Field, &length})
  match binary.ReadSlice r [2, 1, 1] with
  | some ([cls, fld, length], r1) =>
    let n := 4
    -- hasmask := (oxm.Field & 1) == 1 ; oxm.Field >>= 1
    let hasmask := decide (fld &&& 1 = 1)
    let oxm1 : OXM := { oxm with Class := cls, Field := fld >>> 1 }
    if hasmask then
      -- length /= 2 ; oxm.Mask = make([]byte, length) ; binary.Read(r, ..., &oxm.Mask)
      let length1 := length / 2
      match binary.Read r1 length1 with
      | none =>
        ⟨{ oxm1 with Mask := List.replicate length1 0 }, r1, n, some .TruncatedInput⟩
      | some (mask, r2) =>
        let oxm2 : OXM := { oxm1 with Mask := mask }
        -- oxm.Value = make([]byte, length) ; binary.Read(r, ..., &oxm.Value)
        match binary.Read r2 length1 with
        | none =>
          ⟨{ oxm2 with Value := List.replicate length1 0 }, r2, n + length1,
            some .TruncatedInput⟩
        | some (value, r3) =>
          ⟨{ oxm2 with Value := value }, r3, n + length1 + length1, none⟩
    else
      match binary.Read r1 length with
      | none =>
        ⟨{ oxm1 with Value := List.replicate length 0 }, r1, n, some .TruncatedInput⟩
      | some (value, r2) => ⟨{ oxm1 with Value := value }, r2, n + length, none⟩
  | _ => ⟨oxm, r, 0, some .TruncatedInput⟩

/-- Method `(*OXM).WriteTo`. -/
def OXM.WriteTo (oxm : OXM) : Except CodecError (List Nat) :=
  -- field := oxm.Field | (OXMField(len(oxm.Mask)) & 1)
  let field := oxm.Field ||| ((oxm.Mask.length % 256) &&& 1)
  binary.WriteSlice
    [ binary.putUint16 oxm.Class, binary.putUint8 field,
      binary.putUint8 ((oxm.Mask.length + oxm.Value.length) % 256),
      oxm.Mask, oxm.Value ]

/-- The loop `for rbuf.Len() > 7 { ... }` of `(*Match).ReadFrom`, run for at most
`fuel` iterations. -/
def Match.scanFields : Nat → Match → List Nat → Nat → ReadResult Match
  | 0, m, rbuf, n => ⟨m, rbuf, n, none⟩
  | fuel + 1, m, rbuf, n =>
    if rbuf.length > 7 then
      -- var oxm OXM ; nn, err = oxm.ReadFrom(rbuf) ; n += nn
      let res := OXM.ReadFrom OXM.zero rbuf
      match res.err with
      | some e => ⟨m, res.rest, n + res.n, some e⟩
      | none =>
        -- m.OXMFields = append(m.OXMFields, oxm)
        Match.scanFields fuel { m with OXMFields := m.OXMFields ++ [res.recv] }
          res.rest (n + res.n)
    else ⟨m, rbuf, n, none⟩

/-- Method `(*Match).ReadFrom`. The scan loop consumes at least four bytes of
the scratch buffer in each iteration, so the length of the buffer is enough
fuel (`scanFields_fuel`). -/
def Match.ReadFrom (m : Match) (r : List Nat) : ReadResult Match :=
  -- n, err = binary.ReadSlice(r, ..., {&m.Type, &length})
  match binary.ReadSlice r [2, 2] with
  | some ([typ, length], r1) =>
    let m1 : Match := { m with Typ := typ }
    -- buf := make([]byte, length) ; nn, err = binary.Read(r, ..., &buf) ; n += nn
    match binary.Read r1 length with
    | none => ⟨m1, r1, 4, some .TruncatedInput⟩
    | some (buf, r2) =>
      -- rbuf := bytes.NewBuffer(buf)
      let res := Match.scanFields buf.length m1 buf (4 + length)
      ⟨res.recv, r2, res.n, res.err⟩
  | _ => ⟨m, r, 0, some .TruncatedInput⟩

/-- The loop `for _, oxm := range m.OXMFields { oxm.WriteTo(&buf) }` of
`(*Match).WriteTo`, appending to the scratch buffer `buf`. -/
def Match.writeFields : List OXM → List Nat → Except CodecError (List Nat)
  | [], buf => .ok buf
  | oxm :: rest, buf =>
    match OXM.WriteTo oxm with
    | .error e => .error e
    | .ok bs => Match.writeFields rest (buf ++ bs)

/-- Method `(*Match).WriteTo`. -/
def Match.WriteTo (m : Match) : Except CodecError (List Nat) :=
  match Match.writeFields m.OXMFields [] with
  | .error e => .error e
  | .ok buf =>
    -- length := buf.Len() + 4
    let length := buf.length + 4
    -- buf.Write(make([]byte, 8-length%8))
    let buf1 := buf ++ List.replicate (8 - length % 8) 0
    -- binary.WriteSlice(w, ..., {m.Type, uint16(length), buf.Bytes()})
    binary.WriteSlice
      [ binary.putUint16 m.Typ, binary.putUint16 (length % 65536), buf1 ]

/-- The 16-bit big-endian length field of an encoded Match, the bytes at
offsets 2 and 3. -/
def Match.lengthField (out : List Nat) : Nat :=
  binary.beUint ((out.drop 2).take 2)

/-! ## Actions (contract), instructions, FlowMod and Bucket -/

/-- Modelled from the spec: an action record (the action codec is not among
the sources): "`{type: 16-bit enum, payload: type-specific bytes}`". -/
structure Action where
  Typ : Nat
  Payload : List Nat
  deriving DecidableEq, Repr

/-- Modelled from the spec: the action `CopyTTLIn` (type 12, no payload), whose
record is `00 0c 00 08 00 00 00 00`. -/
def ActionCopyTTLIn : Action := ⟨12, []⟩

/-- Modelled from the spec: the action `Output{port, maxlen}` (type 0, payload
port:4, maxlen:2), whose record for port 3 and maxlen 65535 is
`00 00 00 10 00 00 00 03 ff ff 00 00 00 00 00 00`. -/
def ActionOutput (port maxlen : Nat) : Action :=
  ⟨0, binary.putUint32 port ++ binary.putUint16 maxlen⟩

/-- Modelled from the spec: the encoding of one action record: "total on-wire
size (2+2+payload, plus trailing zero padding) is always a multiple of 8
bytes; a 2-byte length field immediately follows the 2-byte type and states
this total size"; a length "exceeding the field width that carries it" is
`ValueTooLarge`. -/
def Action.WriteTo (a : Action) : Except CodecError (List Nat) :=
  let raw := 4 + a.Payload.length
  let padding := (8 - raw % 8) % 8
  let length := raw + padding
  if length > 65535 then .error .ValueTooLarge
  else
    binary.WriteSlice
      [ binary.putUint16 a.Typ, binary.putUint16 length, a.Payload, binary.pad padding ]

/-- The type `Actions` (declared outside the sources): a sequence of actions. -/
abbrev Actions := List Action

/-- Modelled from the spec: `Actions.WriteTo` (not among the sources): "the
concatenated already-self-padded action records". -/
def Actions.WriteTo : Actions → Except CodecError (List Nat)
  | [] => .ok []
  | a :: rest =>
    match Action.WriteTo a with
    | .error e => .error e
    | .ok bs =>
      match Actions.WriteTo rest with
      | .error e => .error e
      | .ok more => .ok (bs ++ more)

/-- The constants `IT_GOTO_TABLE` .. `IT_METER` (`1 + iota`). -/
def IT_GOTO_TABLE : Nat := 1

/-- See `IT_GOTO_TABLE`. -/
def IT_WRITE_METADATA : Nat := 2

/-- See `IT_GOTO_TABLE`. -/
def IT_WRITE_ACTIONS : Nat := 3

/-- See `IT_GOTO_TABLE`. -/
def IT_APPLY_ACTIONS : Nat := 4

/-- See `IT_GOTO_TABLE`. -/
def IT_CLEAR_ACTIONS : Nat := 5

/-- See `IT_GOTO_TABLE`. -/
def IT_METER : Nat := 6

/-- The type `instructionhdr`: type and length, both `uint16`. -/
structure instructionhdr where
  Typ : Nat
  Len : Nat
  deriving DecidableEq, Repr

/-- The bytes `binary.WriteSlice` writes for an `instructionhdr` value: its two
fields in big-endian order. -/
def instructionhdr.bytes (h : instructionhdr) : List Nat :=
  binary.putUint16 h.Typ ++ binary.putUint16 h.Len

/-- The 16-bit big-endian length field of an encoded instruction, the bytes at
offsets 2 and 3 (the `Len` of its `instructionhdr`). -/
def instructionhdr.lengthField (out : List Nat) : Nat :=
  binary.beUint ((out.drop 2).take 2)

/-- The type `InstructionGotoTable`. -/
structure InstructionGotoTable where
  TableID : Nat
  deriving DecidableEq, Repr

/-- The type `InstructionWriteMetadata`. -/
structure InstructionWriteMetadata where
  Metadata : Nat
  MetadataMask : Nat
  deriving DecidableEq, Repr

/-- The type `InstructionActions`. -/
structure InstructionActions where
  Typ : Nat
  Actions : Actions
  deriving DecidableEq, Repr

/-- The type `InstructionMeter`. -/
structure InstructionMeter where
  MeterID : Nat
  deriving DecidableEq, Repr

/-- Method `InstructionGotoTable.WriteTo`. -/
def InstructionGotoTable.WriteTo (i : InstructionGotoTable) : Except CodecError (List Nat) :=
  binary.WriteSlice
    [ (instructionhdr.mk IT_GOTO_TABLE 8).bytes, binary.putUint8 i.TableID, binary.pad 3 ]

/-- Method `InstructionWriteMetadata.WriteTo`. -/
def InstructionWriteMetadata.WriteTo (i : InstructionWriteMetadata) :
    Except CodecError (List Nat) :=
  binary.WriteSlice
    [ (instructionhdr.mk IT_WRITE_METADATA 24).bytes, binary.pad 4,
      binary.putUint64 i.Metadata, binary.putUint64 i.MetadataMask ]

/-- Method `InstructionActions.WriteTo`. -/
def InstructionActions.WriteTo (i : InstructionActions) : Except CodecError (List Nat) :=
  -- _, err = i.Actions.WriteTo(&buf)
  match Actions.WriteTo i.Actions with
  | .error e => .error e
  | .ok buf =>
    -- instructionhdr{i.Type, uint16(buf.Len()) + 8}, pad4{}, buf.Bytes()
    binary.WriteSlice
      [ (instructionhdr.mk i.Typ ((buf.length % 65536 + 8) % 65536)).bytes, binary.pad 4,
        buf ]

/-- Method `(*InstructionMeter).WriteTo`. -/
def InstructionMeter.WriteTo (i : InstructionMeter) : Except CodecError (List Nat) :=
  binary.WriteSlice [ (instructionhdr.mk IT_METER 8).bytes, binary.putUint32 i.MeterID ]

/-- The interface `instruction`, over the four types of the source that
implement it. -/
inductive instruction where
  | gotoTable (i : InstructionGotoTable)
  | writeMetadata (i : InstructionWriteMetadata)
  | actions (i : InstructionActions)
  | meter (i : InstructionMeter)
  deriving DecidableEq, Repr

/-- The call `inst.WriteTo(&buf)` on an interface value. -/
def instruction.WriteTo : instruction → Except CodecError (List Nat)
  | .gotoTable i => i.WriteTo
  | .writeMetadata i => i.WriteTo
  | .actions i => i.WriteTo
  | .meter i => i.WriteTo

/-- The type `Instructions`. -/
abbrev Instructions := List instruction

/-- The loop `for _, inst := range i { inst.WriteTo(&buf) }` of
`Instructions.WriteTo`, appending to the scratch buffer `buf`. -/
def Instructions.writeAll : Instructions → List Nat → Except CodecError (List Nat)
  | [], buf => .ok buf
  | inst :: rest, buf =>
    match instruction.WriteTo inst with
    | .error e => .error e
    | .ok bs => Instructions.writeAll rest (buf ++ bs)

/-- Method `Instructions.WriteTo`. -/
def Instructions.WriteTo (i : Instructions) : Except CodecError (List Nat) :=
  match Instructions.writeAll i [] with
  | .error e => .error e
  | .ok buf => binary.WriteSlice [buf]

/-- The type `FlowMod`. The types `Table`, `PortNo` and `Group` are declared
outside the sources; their widths (1, 4 and 4 bytes) are those of the spec's
wire table. -/
structure FlowMod where
  Cookie : Nat
  CookieMask : Nat
  TableID : Nat
  Command : Nat
  IdleTimeout : Nat
  HardTimeout : Nat
  Priority : Nat
  BufferID : Nat
  OutPort : Nat
  OutGroup : Nat
  Flags : Nat
  Match : Match
  Instructions : Instructions
  deriving DecidableEq, Repr

/-- Method `(*FlowMod).WriteTo`. -/
def FlowMod.WriteTo (f : FlowMod) : Except CodecError (List Nat) :=
  -- _, err = f.Match.WriteTo(&buf)
  match Match.WriteTo f.Match with
  | .error e => .error e
  | .ok mb =>
    -- _, err = f.Instructions.WriteTo(&buf)
    match Instructions.WriteTo f.Instructions with
    | .error e => .error e
    | .ok ib =>
      binary.WriteSlice
        [ binary.putUint64 f.Cookie, binary.putUint64 f.CookieMask,
          binary.putUint8 f.TableID, binary.putUint8 f.Command,
          binary.putUint16 f.IdleTimeout, binary.putUint16 f.HardTimeout,
          binary.putUint16 f.Priority, binary.putUint32 f.BufferID,
          binary.putUint32 f.OutPort, binary.putUint32 f.OutGroup,
          binary.putUint16 f.Flags, binary.pad 2, mb ++ ib ]

/-- Modelled from the spec: the type `Bucket` (its declaration and codec are not
among the sources, only `TestBucket`): "`{weight: 16-bit, watch_port: port
identifier, watch_group: group identifier, actions: ordered sequence of
Action}`". -/
structure Bucket where
  Weight : Nat
  WatchPort : Nat
  WatchGroup : Nat
  Actions : Actions
  deriving DecidableEq, Repr

/-- Modelled from the spec: `Bucket.WriteTo` (not among the sources):
"serialize the action list into a scratch buffer (each action already
self-padded); write `{length: 16 + scratch.len(), weight: 16, watch_port: 32,
watch_group: 32, pad: 32}`, then the scratch bytes"; a length "exceeding the
field width that carries it" is `ValueTooLarge`. -/
def Bucket.WriteTo (b : Bucket) : Except CodecError (List Nat) :=
  match Actions.WriteTo b.Actions with
  | .error e => .error e
  | .ok scratch =>
    let length := 16 + scratch.length
    if length > 65535 then .error .ValueTooLarge
    else
      binary.WriteSlice
        [ binary.putUint16 length, binary.putUint16 b.Weight, binary.putUint32 b.WatchPort,
          binary.putUint32 b.WatchGroup, binary.pad 4, scratch ]

/-! ## Auxiliary facts about the primitives -/

/-- The bytes `(*OXM).WriteTo` hands to the writer. -/
def OXM.wire (oxm : OXM) : List Nat :=
  [oxm.Class / 256 % 256, oxm.Class % 256,
    (oxm.Field ||| ((oxm.Mask.length % 256) &&& 1)) % 256,
    (oxm.Mask.length + oxm.Value.length) % 256] ++ oxm.Mask ++ oxm.Value

theorem binary.Read_ok (r : List Nat) (k : Nat) (h : k ≤ r.length) :
    binary.Read r k = some (r.take k, r.drop k) := by
  simp [binary.Read, h]

theorem binary.Read_short (r : List Nat) (k : Nat) (h : r.length < k) :
    binary.Read r k = none := by
  simp [binary.Read, Nat.not_le.mpr h]

theorem binary.ReadSlice_oxm_header (a b c d : Nat) (r : List Nat) :
    binary.ReadSlice (a :: b :: c :: d :: r) [2, 1, 1] = some ([a * 256 + b, c, d], r) := by
  simp [binary.ReadSlice, binary.Read, binary.beUint]

theorem binary.ReadSlice_match_header (a b c d : Nat) (r : List Nat) :
    binary.ReadSlice (a :: b :: c :: d :: r) [2, 2] =
      some ([a * 256 + b, c * 256 + d], r) := by
  simp [binary.ReadSlice, binary.Read, binary.beUint]

theorem OXM.WriteTo_eq_wire (oxm : OXM) : OXM.WriteTo oxm = .ok oxm.wire := by
  simp [OXM.WriteTo, OXM.wire, binary.WriteSlice, binary.putUint16, binary.putUint8]

theorem OXM.wire_length (oxm : OXM) :
    oxm.wire.length = 4 + oxm.Mask.length + oxm.Value.length := by
  simp [OXM.wire]; omega

theorem Match.writeFields_eq (xs : List OXM) (buf : List Nat) :
    Match.writeFields xs buf = .ok (buf ++ (xs.map OXM.wire).flatten) := by
  induction xs generalizing buf with
  | nil => simp [Match.writeFields]
  | cons x xs ih => simp [Match.writeFields, OXM.WriteTo_eq_wire, ih]

theorem Match.WriteTo_eq (m : Match) :
    Match.WriteTo m = .ok (binary.putUint16 m.Typ ++
      binary.putUint16 ((4 + (m.OXMFields.map OXM.wire).flatten.length) % 65536) ++
      (m.OXMFields.map OXM.wire).flatten ++
      List.replicate (8 - (4 + (m.OXMFields.map OXM.wire).flatten.length) % 8) 0) := by
  simp [Match.WriteTo, Match.writeFields_eq, binary.WriteSlice, Nat.add_comm]

theorem OXM.forall₂_wire (xs : List OXM) :
    List.Forall₂ (fun oxm e => OXM.WriteTo oxm = .ok e) xs (xs.map OXM.wire) := by
  induction xs with
  | nil => exact List.Forall₂.nil
  | cons x xs ih => exact List.Forall₂.cons (OXM.WriteTo_eq_wire x) ih

theorem binary.ReadSlice_oxm_short (r : List Nat) (h : r.length < 4) :
    binary.ReadSlice r [2, 1, 1] = none := by
  rcases r with _ | ⟨a, _ | ⟨b, _ | ⟨c, _ | ⟨d, r1⟩⟩⟩⟩
  · simp [binary.ReadSlice, binary.Read]
  · simp [binary.ReadSlice, binary.Read]
  · simp [binary.ReadSlice, binary.Read]
  · simp [binary.ReadSlice, binary.Read]
  · simp only [List.length_cons] at h
    omega

/-- A successful `OXM.ReadFrom` consumes the bytes it counts, at least the four
header bytes. -/
theorem OXM.ReadFrom_consumes (oxm : OXM) (r : List Nat)
    (h : (OXM.ReadFrom oxm r).err = none) :
    (OXM.ReadFrom oxm r).rest.length + (OXM.ReadFrom oxm r).n = r.length ∧
      4 ≤ (OXM.ReadFrom oxm r).n := by
  by_cases hr : r.length < 4
  · simp [OXM.ReadFrom, binary.ReadSlice_oxm_short r hr] at h
  · obtain ⟨a, b, c, d, r1, rfl⟩ : ∃ a b c d r1, r = a :: b :: c :: d :: r1 := by
      rcases r with _ | ⟨a, _ | ⟨b, _ | ⟨c, _ | ⟨d, r1⟩⟩⟩⟩
      · simp at hr
      · simp at hr
      · simp at hr
      · simp at hr
      · exact ⟨a, b, c, d, r1, rfl⟩
    simp only [OXM.ReadFrom, binary.ReadSlice_oxm_header] at h ⊢
    by_cases hf : c &&& 1 = 1
    · simp only [hf, decide_True, if_true] at h ⊢
      by_cases h1 : d / 2 ≤ r1.length
      · rw [binary.Read_ok _ _ h1] at h ⊢
        simp only at h ⊢
        by_cases h2 : d / 2 ≤ (r1.drop (d / 2)).length
        · rw [binary.Read_ok _ _ h2]
          simp only [List.length_drop, List.length_cons] at h2 ⊢
          omega
        · rw [binary.Read_short _ _ (Nat.lt_of_not_le h2)] at h
          simp at h
      · rw [binary.Read_short _ _ (Nat.lt_of_not_le h1)] at h
        simp at h
    · simp only [hf, decide_False, Bool.false_eq_true, if_false] at h ⊢
      by_cases h1 : d ≤ r1.length
      · rw [binary.Read_ok _ _ h1]
        simp only [List.length_drop, List.length_cons]
        omega
      · rw [binary.Read_short _ _ (Nat.lt_of_not_le h1)] at h
        simp at h

theorem Match.scanFields_short (fuel : Nat) (m : Match) (rbuf : List Nat) (n : Nat)
    (h : rbuf.length < 8) : Match.scanFields fuel m rbuf n = ⟨m, rbuf, n, none⟩ := by
  cases fuel with
  | zero => rfl
  | succ fuel =>
    have : ¬ rbuf.length > 7 := by omega
    simp [Match.scanFields, this]

/-- One iteration of the scan loop, when at least eight bytes remain. -/
theorem Match.scanFields_step (fuel : Nat) (m : Match) (rbuf : List Nat) (n : Nat)
    (h : 8 ≤ rbuf.length) :
    Match.scanFields (fuel + 1) m rbuf n =
      match (OXM.ReadFrom OXM.zero rbuf).err with
      | some e =>
        ⟨m, (OXM.ReadFrom OXM.zero rbuf).rest, n + (OXM.ReadFrom OXM.zero rbuf).n, some e⟩
      | none =>
        Match.scanFields fuel ⟨m.Typ, m.OXMFields ++ [(OXM.ReadFrom OXM.zero rbuf).recv]⟩
          (OXM.ReadFrom OXM.zero rbuf).rest (n + (OXM.ReadFrom OXM.zero rbuf).n) := by
  have : rbuf.length > 7 := by omega
  simp only [Match.scanFields, this, if_true]

/-- The length of the scratch buffer is enough fuel for the scan loop: more fuel
does not change the outcome. -/
theorem Match.scanFields_fuel (fuel k : Nat) (m : Match) (rbuf : List Nat) (n : Nat)
    (h : rbuf.length ≤ fuel) :
    Match.scanFields (fuel + k) m rbuf n = Match.scanFields fuel m rbuf n := by
  induction fuel generalizing m rbuf n with
  | zero =>
    have h0 : rbuf.length < 8 := by omega
    rw [Match.scanFields_short _ _ _ _ h0, Match.scanFields_short _ _ _ _ h0]
  | succ fuel ih =>
    by_cases h8 : rbuf.length < 8
    · rw [Match.scanFields_short _ _ _ _ h8, Match.scanFields_short _ _ _ _ h8]
    · have h8' : 8 ≤ rbuf.length := by omega
      rw [show fuel + 1 + k = (fuel + k) + 1 by omega,
        Match.scanFields_step _ _ _ _ h8', Match.scanFields_step _ _ _ _ h8']
      cases herr : (OXM.ReadFrom OXM.zero rbuf).err with
      | some e => rfl
      | none =>
        have hc := OXM.ReadFrom_consumes OXM.zero rbuf herr
        exact ih _ _ _ (by omega)

/-- With enough fuel, a scan that ends without error leaves fewer than eight
bytes of the scratch buffer. -/
theorem Match.scanFields_rest (fuel : Nat) (m : Match) (rbuf : List Nat) (n : Nat)
    (h : rbuf.length ≤ fuel) (herr : (Match.scanFields fuel m rbuf n).err = none) :
    (Match.scanFields fuel m rbuf n).rest.length < 8 := by
  induction fuel generalizing m rbuf n with
  | zero =>
    have h0 : rbuf.length < 8 := by omega
    rw [Match.scanFields_short _ _ _ _ h0]
    exact h0
  | succ fuel ih =>
    by_cases h8 : rbuf.length < 8
    · rw [Match.scanFields_short _ _ _ _ h8]
      exact h8
    · have h8' : 8 ≤ rbuf.length := by omega
      rw [Match.scanFields_step _ _ _ _ h8'] at herr ⊢
      cases hres : (OXM.ReadFrom OXM.zero rbuf).err with
      | some e => rw [hres] at herr; simp at herr
      | none =>
        rw [hres] at herr
        have hc := OXM.ReadFrom_consumes OXM.zero rbuf hres
        simp only [hres]
        exact ih _ _ _ (by omega) herr

theorem Match.ReadFrom_cons (m : Match) (t1 t0 l1 l0 : Nat) (r1 : List Nat) :
    Match.ReadFrom m (t1 :: t0 :: l1 :: l0 :: r1) =
      match binary.Read r1 (l1 * 256 + l0) with
      | none => ⟨⟨t1 * 256 + t0, m.OXMFields⟩, r1, 4, some .TruncatedInput⟩
      | some (buf, r2) =>
        ⟨(Match.scanFields buf.length ⟨t1 * 256 + t0, m.OXMFields⟩ buf
            (4 + (l1 * 256 + l0))).recv, r2,
          (Match.scanFields buf.length ⟨t1 * 256 + t0, m.OXMFields⟩ buf
            (4 + (l1 * 256 + l0))).n,
          (Match.scanFields buf.length ⟨t1 * 256 + t0, m.OXMFields⟩ buf
            (4 + (l1 * 256 + l0))).err⟩ := by
  simp only [Match.ReadFrom, binary.ReadSlice_match_header]

theorem binary.Read_append (a b : List Nat) :
    binary.Read (a ++ b) a.length = some (a, b) := by
  rw [binary.Read_ok _ _ (by simp)]
  simp

/-- The count the scan loop starts from is only passed along: it does not
influence what the loop decodes. -/
theorem Match.scanFields_count (fuel : Nat) (m : Match) (rbuf : List Nat) (n : Nat) :
    Match.scanFields fuel m rbuf n =
      ⟨(Match.scanFields fuel m rbuf 0).recv, (Match.scanFields fuel m rbuf 0).rest,
        n + (Match.scanFields fuel m rbuf 0).n, (Match.scanFields fuel m rbuf 0).err⟩ := by
  induction fuel generalizing m rbuf n with
  | zero => simp [Match.scanFields]
  | succ fuel ih =>
    by_cases h8 : rbuf.length < 8
    · rw [Match.scanFields_short _ _ _ _ h8, Match.scanFields_short _ _ _ _ h8]
      simp
    · have h8' : 8 ≤ rbuf.length := by omega
      rw [Match.scanFields_step _ _ _ _ h8', Match.scanFields_step _ _ _ 0 h8']
      cases herr : (OXM.ReadFrom OXM.zero rbuf).err with
      | some e => simp
      | none =>
        simp only
        rw [ih _ _ (n + (OXM.ReadFrom OXM.zero rbuf).n),
          ih _ _ (0 + (OXM.ReadFrom OXM.zero rbuf).n)]
        simp only [ReadResult.mk.injEq, true_and, and_true]
        omega

/-! ## The packed field byte and the OXM round trip -/

/-- C1, the code at the input named by the claim: for `Field = 5` with
`Mask = [0xff]` the third byte written by `OXM.WriteTo` is 5, not
`(5 << 1) | 1 = 11`, and for `Field = 5` with no mask it is 5, not
`5 << 1 = 10`: the encoder ors the low bit of `len(Mask)` into the unshifted
field. -/
theorem OXM_WriteTo_field_byte_unshifted :
    OXM.WriteTo ⟨0x8000, 5, [0xff], [0x01]⟩ = .ok [0x80, 0x00, 5, 2, 0xff, 0x01] ∧
    OXM.WriteTo ⟨0x8000, 5, [], [0x01]⟩ = .ok [0x80, 0x00, 5, 1, 0x01] ∧
    (5 <<< 1) ||| 1 = 11 ∧ 5 <<< 1 = 10 := by
  decide

/-- C2, the code at a failing input: the OXM with class 0x8000, field 5, no
mask and the two value bytes 1, 2 is encoded as `80 00 05 02 01 02`, and
`OXM.ReadFrom` decodes these bytes without error as field 2 with mask `[1]`
and value `[2]`: the round trip does not give the OXM back. -/
theorem OXM_round_trip_fails_at_field_5 :
    OXM.WriteTo ⟨0x8000, 5, [], [1, 2]⟩ = .ok [0x80, 0x00, 5, 2, 1, 2] ∧
    OXM.ReadFrom OXM.zero [0x80, 0x00, 5, 2, 1, 2] =
      ⟨⟨0x8000, 2, [1], [2]⟩, [], 6, none⟩ := by
  decide

/-- C3, the code at two failing inputs. A Match holding one OXM with field 0
and a six-byte value is encoded in 16 bytes with length field 14, and
`Match.ReadFrom` then asks for 14 bytes after the 4-byte header, finds 12 and
fails. A Match holding one OXM with field 5 and a two-byte value is decoded
without error, but to an entry with field 2, mask `[1]` and value `[2]`. -/
theorem Match_round_trip_fails :
    Match.WriteTo ⟨1, [⟨0x8000, 0, [], [1, 2, 3, 4, 5, 6]⟩]⟩ =
      .ok [0, 1, 0, 14, 0x80, 0, 0, 6, 1, 2, 3, 4, 5, 6, 0, 0] ∧
    (Match.ReadFrom Match.zero
      [0, 1, 0, 14, 0x80, 0, 0, 6, 1, 2, 3, 4, 5, 6, 0, 0]).err = some .TruncatedInput ∧
    Match.WriteTo ⟨1, [⟨0x8000, 5, [], [1, 2]⟩]⟩ =
      .ok [0, 1, 0, 10, 0x80, 0, 5, 2, 1, 2, 0, 0, 0, 0, 0, 0] ∧
    Match.ReadFrom Match.zero [0, 1, 0, 10, 0x80, 0, 5, 2, 1, 2, 0, 0, 0, 0, 0, 0] =
      ⟨⟨1, [⟨0x8000, 2, [1], [2]⟩]⟩, [0, 0], 20, none⟩ := by
  decide

/-! ## Padding and the length field of a Match -/

/-- C4: for every Match, with `s` the number of bytes of its encoded OXM
entries and `raw = 4 + s`, `Match.WriteTo` writes the 4-byte header (type,
then the 16-bit length), the `s` OXM bytes and then `8 - raw % 8` zero bytes;
that number is between 1 and 8, it is 8 when `raw` is a multiple of 8, and
the number of bytes written is a multiple of 8. -/
theorem Match_WriteTo_padding (m : Match) :
    ∃ encs : List (List Nat),
      List.Forall₂ (fun oxm e => OXM.WriteTo oxm = .ok e) m.OXMFields encs ∧
      ∃ hdr out : List Nat,
        hdr.length = 4 ∧
        Match.WriteTo m = .ok out ∧
        out = hdr ++ encs.flatten ++
          List.replicate (8 - (4 + encs.flatten.length) % 8) 0 ∧
        1 ≤ 8 - (4 + encs.flatten.length) % 8 ∧
        8 - (4 + encs.flatten.length) % 8 ≤ 8 ∧
        ((4 + encs.flatten.length) % 8 = 0 → 8 - (4 + encs.flatten.length) % 8 = 8) ∧
        out.length = 4 + encs.flatten.length + (8 - (4 + encs.flatten.length) % 8) ∧
        out.length % 8 = 0 := by
  refine ⟨m.OXMFields.map OXM.wire, OXM.forall₂_wire _, ?_⟩
  refine ⟨binary.putUint16 m.Typ ++
    binary.putUint16 ((4 + (m.OXMFields.map OXM.wire).flatten.length) % 65536), _,
    by simp [binary.putUint16], Match.WriteTo_eq m, rfl, ?_⟩
  generalize (m.OXMFields.map OXM.wire).flatten = body
  simp only [List.length_append, List.length_replicate, binary.putUint16,
    List.length_cons, List.length_nil]
  refine ⟨?_, ?_, fun h => ?_, ?_, ?_⟩
  all_goals first | trivial | omega

/-- C5, counterexample: the Match with type 0 and no OXM entry is encoded
in 8 bytes, `00 00 00 04 00 00 00 00`; its length field is 4, which is neither
the number of bytes written (4 plus the 4 bytes of the padded scratch buffer)
nor a multiple of 8. -/
theorem Match_length_field_counterexample :
    Match.WriteTo ⟨0, []⟩ = .ok [0, 0, 0, 4, 0, 0, 0, 0] ∧
    (Match.WriteTo ⟨0, []⟩).map
        (fun out => (Match.lengthField out, out.length, Match.lengthField out % 8)) =
      .ok (4, 8, 4) := by
  decide

/-- C5, amended: for every Match whose encoding is shorter than 65536 bytes,
the length field written by `Match.WriteTo` at offsets 2..3 equals `4 + s`,
where `s` is the number of bytes of the encoded OXM entries before padding;
the number of bytes written is the length field plus the `8 - (4 + s) % 8`
padding bytes. -/
theorem Match_WriteTo_length_field (m : Match) (out : List Nat)
    (hout : Match.WriteTo m = .ok out) (hlen : out.length < 65536) :
    ∃ encs : List (List Nat),
      List.Forall₂ (fun oxm e => OXM.WriteTo oxm = .ok e) m.OXMFields encs ∧
      Match.lengthField out = 4 + encs.flatten.length ∧
      out.length = Match.lengthField out + (8 - (4 + encs.flatten.length) % 8) := by
  refine ⟨m.OXMFields.map OXM.wire, OXM.forall₂_wire _, ?_⟩
  rw [Match.WriteTo_eq] at hout
  injection hout with hout
  subst hout
  generalize (m.OXMFields.map OXM.wire).flatten = body at hlen ⊢
  simp only [List.length_append, List.length_replicate, binary.putUint16,
    List.length_cons, List.length_nil] at hlen
  have hfield : Match.lengthField
      ([m.Typ / 256 % 256, m.Typ % 256] ++
        [(4 + body.length) % 65536 / 256 % 256, (4 + body.length) % 65536 % 256] ++
        body ++ List.replicate (8 - (4 + body.length) % 8) 0) = 4 + body.length := by
    simp [Match.lengthField, binary.beUint]
    omega
  simp only [binary.putUint16]
  rw [hfield]
  refine ⟨rfl, ?_⟩
  simp only [List.length_append, List.length_replicate, List.length_cons,
    List.length_nil]

/-- C5, witness of the amended claim: a Match with one OXM entry of four
value bytes is encoded in 16 bytes with length field 12. -/
theorem Match_WriteTo_length_field_witness :
    Match.WriteTo ⟨1, [⟨0x8000, 0, [], [0, 0, 0, 1]⟩]⟩ =
      .ok [0, 1, 0, 12, 0x80, 0, 0, 4, 0, 0, 0, 1, 0, 0, 0, 0] ∧
    [0, 1, 0, 12, 0x80, 0, 0, 4, 0, 0, 0, 1, 0, 0, 0, 0].length < 65536 ∧
    ∃ encs : List (List Nat),
      List.Forall₂ (fun oxm e => OXM.WriteTo oxm = .ok e)
        [(⟨0x8000, 0, [], [0, 0, 0, 1]⟩ : OXM)] encs ∧
      Match.lengthField [0, 1, 0, 12, 0x80, 0, 0, 4, 0, 0, 0, 1, 0, 0, 0, 0] =
        4 + encs.flatten.length ∧
      [0, 1, 0, 12, 0x80, 0, 0, 4, 0, 0, 0, 1, 0, 0, 0, 0].length =
        Match.lengthField [0, 1, 0, 12, 0x80, 0, 0, 4, 0, 0, 0, 1, 0, 0, 0, 0] +
          (8 - (4 + encs.flatten.length) % 8) :=
  ⟨by decide, by decide,
    Match_WriteTo_length_field ⟨1, [⟨0x8000, 0, [], [0, 0, 0, 1]⟩]⟩
      [0, 1, 0, 12, 0x80, 0, 0, 4, 0, 0, 0, 1, 0, 0, 0, 0] (by decide) (by decide)⟩

/-! ## Decoding -/

/-- C6: for every input that starts with the two bytes of a big-endian class
`c = c1 * 256 + c0`, a byte `f`, a length byte `L` and at least `L` further
bytes, `OXM.ReadFrom` on a fresh OXM succeeds with `Class = c` and
`Field = f >> 1`; when `f & 1 = 1` the mask is the first `L / 2` payload bytes
and the value the next `L / 2` payload bytes, and when `f & 1 = 0` the value
is the first `L` payload bytes and the mask is absent. -/
theorem OXM_ReadFrom_decodes (c1 c0 f L : Nat) (payload : List Nat)
    (hL : L ≤ payload.length) :
    (OXM.ReadFrom OXM.zero (c1 :: c0 :: f :: L :: payload)).err = none ∧
    (OXM.ReadFrom OXM.zero (c1 :: c0 :: f :: L :: payload)).recv.Class = c1 * 256 + c0 ∧
    (OXM.ReadFrom OXM.zero (c1 :: c0 :: f :: L :: payload)).recv.Field = f >>> 1 ∧
    (f &&& 1 = 1 →
      (OXM.ReadFrom OXM.zero (c1 :: c0 :: f :: L :: payload)).recv.Mask =
        payload.take (L / 2) ∧
      (OXM.ReadFrom OXM.zero (c1 :: c0 :: f :: L :: payload)).recv.Value =
        (payload.drop (L / 2)).take (L / 2)) ∧
    (f &&& 1 = 0 →
      (OXM.ReadFrom OXM.zero (c1 :: c0 :: f :: L :: payload)).recv.Value =
        payload.take L ∧
      (OXM.ReadFrom OXM.zero (c1 :: c0 :: f :: L :: payload)).recv.Mask = []) := by
  have h1 : L / 2 ≤ payload.length := by omega
  have h2 : L / 2 ≤ (payload.drop (L / 2)).length := by
    simp only [List.length_drop]; omega
  by_cases hf : f &&& 1 = 1
  · simp [OXM.ReadFrom, binary.ReadSlice_oxm_header, hf, binary.Read_ok _ _ h1,
      binary.Read_ok _ _ h2]
  · have hf0 : f &&& 1 = 0 := by
      rw [Nat.and_one_is_mod] at hf ⊢; omega
    simp [OXM.ReadFrom, binary.ReadSlice_oxm_header, hf0, binary.Read_ok _ _ hL,
      OXM.zero]

/-- C6, witness: a masked entry `80 00 0b 04 ff 00 12 34` followed by two more
bytes. -/
theorem OXM_ReadFrom_decodes_witness :
    4 ≤ [0xff, 0x00, 0x12, 0x34, 7, 7].length ∧
    (OXM.ReadFrom OXM.zero [0x80, 0, 11, 4, 0xff, 0x00, 0x12, 0x34, 7, 7]).recv.Mask =
      [0xff, 0x00] ∧
    (OXM.ReadFrom OXM.zero [0x80, 0, 11, 4, 0xff, 0x00, 0x12, 0x34, 7, 7]).recv.Value =
      [0x12, 0x34] :=
  ⟨by decide,
    (OXM_ReadFrom_decodes 0x80 0 11 4 [0xff, 0x00, 0x12, 0x34, 7, 7]
      (by decide)).2.2.2.1 (by decide)⟩

/-- C7: for every input made of a 4-byte Match header that declares the
length `L = l1 * 256 + l0`, followed by fewer than `L` bytes, `Match.ReadFrom`
returns an error, leaves the OXM entries of the Match as they were, reports no
more bytes than were supplied and leaves a reader that is a tail of the
input. -/
theorem Match_ReadFrom_truncated (m : Match) (t1 t0 l1 l0 : Nat) (body : List Nat)
    (hshort : body.length < l1 * 256 + l0) :
    (Match.ReadFrom m (t1 :: t0 :: l1 :: l0 :: body)).err = some .TruncatedInput ∧
    (Match.ReadFrom m (t1 :: t0 :: l1 :: l0 :: body)).recv.OXMFields = m.OXMFields ∧
    (Match.ReadFrom m (t1 :: t0 :: l1 :: l0 :: body)).n ≤
      (t1 :: t0 :: l1 :: l0 :: body).length ∧
    (Match.ReadFrom m (t1 :: t0 :: l1 :: l0 :: body)).rest <:+
      t1 :: t0 :: l1 :: l0 :: body := by
  simp only [Match.ReadFrom, binary.ReadSlice_match_header,
    binary.Read_short _ _ hshort]
  refine ⟨trivial, trivial, by simp, ?_⟩
  exact ⟨[t1, t0, l1, l0], rfl⟩

/-- C7, witness: a header declaring 16 body bytes followed by 6 bytes. -/
theorem Match_ReadFrom_truncated_witness :
    [0x80, 0, 0, 2, 1, 2].length < 0 * 256 + 16 ∧
    (Match.ReadFrom ⟨0, [⟨1, 2, [], [3]⟩]⟩ [0, 1, 0, 16, 0x80, 0, 0, 2, 1, 2]).err =
      some .TruncatedInput ∧
    (Match.ReadFrom ⟨0, [⟨1, 2, [], [3]⟩]⟩
      [0, 1, 0, 16, 0x80, 0, 0, 2, 1, 2]).recv.OXMFields = [⟨1, 2, [], [3]⟩] :=
  ⟨by decide,
    (Match_ReadFrom_truncated ⟨0, [⟨1, 2, [], [3]⟩]⟩ 0 1 0 16 [0x80, 0, 0, 2, 1, 2]
      (by decide)).1,
    (Match_ReadFrom_truncated ⟨0, [⟨1, 2, [], [3]⟩]⟩ 0 1 0 16 [0x80, 0, 0, 2, 1, 2]
      (by decide)).2.1⟩

/-- C8: in the scan loop of `Match.ReadFrom`, run on a scratch buffer `rbuf`
with the fuel the decoder gives it or more: when fewer than 8 bytes remain
the loop ends without error, adds no entry and leaves the bytes, whatever
they are; when at least 8 bytes remain it decodes one more OXM entry, ending
with that entry's error or going on with the entry appended; a scan that
ends without error leaves fewer than 8 bytes. For `Match.ReadFrom` itself, on
a header that declares the body `rbuf`, followed by `rbuf` and any further
bytes `tail`: a body shorter than 8 bytes is decoded without error to a
Match with no new OXM entry; on a body of at least 8 bytes an entry is
decoded from the front of the body: when that fails, `Match.ReadFrom` fails
with the same error and adds no entry, and when it succeeds, leaving the
bytes `rest`, `Match.ReadFrom` gives the Match and the error it gives, with the
entry already appended, on the body `rest`. In all these cases the reader is
left at `tail`. -/
theorem Match_scan_stops_below_eight (m : Match) (rbuf : List Nat) (n fuel : Nat)
    (hfuel : rbuf.length ≤ fuel) :
    (rbuf.length < 8 → Match.scanFields fuel m rbuf n = ⟨m, rbuf, n, none⟩) ∧
    (8 ≤ rbuf.length →
      Match.scanFields fuel m rbuf n =
        match (OXM.ReadFrom OXM.zero rbuf).err with
        | some e =>
          ⟨m, (OXM.ReadFrom OXM.zero rbuf).rest, n + (OXM.ReadFrom OXM.zero rbuf).n,
            some e⟩
        | none =>
          Match.scanFields fuel
            ⟨m.Typ, m.OXMFields ++ [(OXM.ReadFrom OXM.zero rbuf).recv]⟩
            (OXM.ReadFrom OXM.zero rbuf).rest (n + (OXM.ReadFrom OXM.zero rbuf).n)) ∧
    ((Match.scanFields fuel m rbuf n).err = none →
      (Match.scanFields fuel m rbuf n).rest.length < 8) ∧
    (∀ t1 t0 l1 l0 : Nat, ∀ tail : List Nat,
      rbuf.length = l1 * 256 + l0 → rbuf.length < 8 →
      Match.ReadFrom m (t1 :: t0 :: l1 :: l0 :: (rbuf ++ tail)) =
        ⟨⟨t1 * 256 + t0, m.OXMFields⟩, tail, 4 + rbuf.length, none⟩) ∧
    (∀ t1 t0 l1 l0 : Nat, ∀ tail : List Nat, ∀ e : CodecError,
      rbuf.length = l1 * 256 + l0 → 8 ≤ rbuf.length →
      (OXM.ReadFrom OXM.zero rbuf).err = some e →
      (Match.ReadFrom m (t1 :: t0 :: l1 :: l0 :: (rbuf ++ tail))).err = some e ∧
      (Match.ReadFrom m (t1 :: t0 :: l1 :: l0 :: (rbuf ++ tail))).recv =
        ⟨t1 * 256 + t0, m.OXMFields⟩ ∧
      (Match.ReadFrom m (t1 :: t0 :: l1 :: l0 :: (rbuf ++ tail))).rest = tail) ∧
    (∀ t1 t0 l1 l0 : Nat, ∀ tail : List Nat,
      rbuf.length = l1 * 256 + l0 → 8 ≤ rbuf.length →
      (OXM.ReadFrom OXM.zero rbuf).err = none →
      (Match.ReadFrom m (t1 :: t0 :: l1 :: l0 :: (rbuf ++ tail))).recv =
        (Match.ReadFrom ⟨m.Typ, m.OXMFields ++ [(OXM.ReadFrom OXM.zero rbuf).recv]⟩
          (t1 :: t0 :: (OXM.ReadFrom OXM.zero rbuf).rest.length / 256 ::
            (OXM.ReadFrom OXM.zero rbuf).rest.length % 256 ::
            ((OXM.ReadFrom OXM.zero rbuf).rest ++ tail))).recv ∧
      (Match.ReadFrom m (t1 :: t0 :: l1 :: l0 :: (rbuf ++ tail))).err =
        (Match.ReadFrom ⟨m.Typ, m.OXMFields ++ [(OXM.ReadFrom OXM.zero rbuf).recv]⟩
          (t1 :: t0 :: (OXM.ReadFrom OXM.zero rbuf).rest.length / 256 ::
            (OXM.ReadFrom OXM.zero rbuf).rest.length % 256 ::
            ((OXM.ReadFrom OXM.zero rbuf).rest ++ tail))).err ∧
      (Match.ReadFrom m (t1 :: t0 :: l1 :: l0 :: (rbuf ++ tail))).rest = tail) := by
  refine ⟨Match.scanFields_short fuel m rbuf n, ?_, Match.scanFields_rest fuel m rbuf n hfuel,
    ?_, ?_, ?_⟩
  · intro h8
    obtain ⟨f, rfl⟩ : ∃ f, fuel = f + 1 := ⟨fuel - 1, by omega⟩
    rw [Match.scanFields_step _ _ _ _ h8]
    cases herr : (OXM.ReadFrom OXM.zero rbuf).err with
    | some e => rfl
    | none =>
      have hc := OXM.ReadFrom_consumes OXM.zero rbuf herr
      exact (Match.scanFields_fuel f 1 _ _ _ (by omega)).symm
  · intro t1 t0 l1 l0 tail hlen h8
    have hread : binary.Read (rbuf ++ tail) (l1 * 256 + l0) = some (rbuf, tail) := by
      rw [← hlen]; exact binary.Read_append rbuf tail
    simp only [Match.ReadFrom, binary.ReadSlice_match_header, hread]
    rw [Match.scanFields_short _ _ _ _ h8, hlen]
  · intro t1 t0 l1 l0 tail e hlen h8 herr
    have hread : binary.Read (rbuf ++ tail) (l1 * 256 + l0) = some (rbuf, tail) := by
      rw [← hlen]; exact binary.Read_append rbuf tail
    obtain ⟨f, hf⟩ : ∃ f, rbuf.length = f + 1 := ⟨rbuf.length - 1, by omega⟩
    rw [Match.ReadFrom_cons, hread]
    simp only
    rw [hf, Match.scanFields_step _ _ _ _ h8, herr]
    refine ⟨?_, ?_, ?_⟩ <;> first | rfl | trivial
  · intro t1 t0 l1 l0 tail hlen h8 herr
    have hread : binary.Read (rbuf ++ tail) (l1 * 256 + l0) = some (rbuf, tail) := by
      rw [← hlen]; exact binary.Read_append rbuf tail
    have hc := OXM.ReadFrom_consumes OXM.zero rbuf herr
    have hdecl : (OXM.ReadFrom OXM.zero rbuf).rest.length / 256 * 256 +
        (OXM.ReadFrom OXM.zero rbuf).rest.length % 256 =
        (OXM.ReadFrom OXM.zero rbuf).rest.length := by omega
    obtain ⟨k, hk⟩ : ∃ k, rbuf.length = ((OXM.ReadFrom OXM.zero rbuf).rest.length + k) + 1 :=
      ⟨rbuf.length - 1 - (OXM.ReadFrom OXM.zero rbuf).rest.length, by omega⟩
    rw [Match.ReadFrom_cons, hread, Match.ReadFrom_cons, hdecl, binary.Read_append]
    simp only
    rw [hk, Match.scanFields_step _ _ _ _ h8, herr]
    simp only
    rw [Match.scanFields_fuel _ k _ _ _ (Nat.le_refl _), Match.scanFields_count _ _ _ (_ + _),
      Match.scanFields_count _ _ _ (4 + _)]
    refine ⟨?_, ?_, ?_⟩ <;> first | rfl | trivial

/-- C8, witness: on the 12 bytes of one 8-byte OXM entry followed by the four
non-zero bytes 9, 9, 9, 9 the loop decodes the entry and then stops, leaving
those four bytes; a declared body of three non-zero bytes gives no entry; and
`Match.ReadFrom` on a header declaring 20 body bytes, two 8-byte entries, the
bytes 9, 9, 9, 9 and two further bytes decodes the two entries without error
and leaves the two further bytes. -/
theorem Match_scan_stops_below_eight_witness :
    [0x80, 0, 0, 4, 1, 2, 3, 4, 9, 9, 9, 9].length ≤ 12 ∧
    Match.scanFields 12 Match.zero [0x80, 0, 0, 4, 1, 2, 3, 4, 9, 9, 9, 9] 0 =
      ⟨⟨0, [⟨0x8000, 0, [], [1, 2, 3, 4]⟩]⟩, [9, 9, 9, 9], 8, none⟩ ∧
    Match.ReadFrom Match.zero (0 :: 1 :: 0 :: 3 :: ([7, 8, 9] ++ [5, 5])) =
      ⟨⟨0 * 256 + 1, []⟩, [5, 5], 4 + 3, none⟩ ∧
    (Match.ReadFrom Match.zero
      (0 :: 1 :: 0 :: 20 ::
        ([0x80, 0, 0, 4, 1, 2, 3, 4, 0x80, 0, 2, 4, 5, 6, 7, 8, 9, 9, 9, 9] ++ [5, 5]))).recv =
      ⟨1, [⟨0x8000, 0, [], [1, 2, 3, 4]⟩, ⟨0x8000, 1, [], [5, 6, 7, 8]⟩]⟩ ∧
    (Match.ReadFrom Match.zero
      (0 :: 1 :: 0 :: 20 ::
        ([0x80, 0, 0, 4, 1, 2, 3, 4, 0x80, 0, 2, 4, 5, 6, 7, 8, 9, 9, 9, 9] ++ [5, 5]))).err =
      none ∧
    (Match.ReadFrom Match.zero
      (0 :: 1 :: 0 :: 20 ::
        ([0x80, 0, 0, 4, 1, 2, 3, 4, 0x80, 0, 2, 4, 5, 6, 7, 8, 9, 9, 9, 9] ++ [5, 5]))).rest =
      [5, 5] ∧
    Match.ReadFrom Match.zero
      [0, 1, 0, 20, 0x80, 0, 0, 4, 1, 2, 3, 4, 0x80, 0, 2, 4, 5, 6, 7, 8, 9, 9, 9, 9, 5, 5] =
      ⟨⟨1, [⟨0x8000, 0, [], [1, 2, 3, 4]⟩, ⟨0x8000, 1, [], [5, 6, 7, 8]⟩]⟩, [5, 5], 40,
        none⟩ :=
  ⟨by decide,
    ((Match_scan_stops_below_eight Match.zero [0x80, 0, 0, 4, 1, 2, 3, 4, 9, 9, 9, 9] 0 12
      (by decide)).2.1 (by decide)).trans (by decide),
    (Match_scan_stops_below_eight Match.zero [7, 8, 9] 0 3 (by decide)).2.2.2.1
      0 1 0 3 [5, 5] (by decide) (by decide),
    ((Match_scan_stops_below_eight Match.zero
      [0x80, 0, 0, 4, 1, 2, 3, 4, 0x80, 0, 2, 4, 5, 6, 7, 8, 9, 9, 9, 9] 0 20
      (by decide)).2.2.2.2.2 0 1 0 20 [5, 5] (by decide) (by decide) (by decide)).1.trans
      (by decide),
    ((Match_scan_stops_below_eight Match.zero
      [0x80, 0, 0, 4, 1, 2, 3, 4, 0x80, 0, 2, 4, 5, 6, 7, 8, 9, 9, 9, 9] 0 20
      (by decide)).2.2.2.2.2 0 1 0 20 [5, 5] (by decide) (by decide) (by decide)).2.1.trans
      (by decide),
    ((Match_scan_stops_below_eight Match.zero
      [0x80, 0, 0, 4, 1, 2, 3, 4, 0x80, 0, 2, 4, 5, 6, 7, 8, 9, 9, 9, 9] 0 20
      (by decide)).2.2.2.2.2 0 1 0 20 [5, 5] (by decide) (by decide) (by decide)).2.2,
    by decide⟩

/-! ## Oversized values and re-encoding -/

/-- C9, counterexample: an OXM whose value has 256 bytes is encoded without
error, in 260 bytes, with the length byte 0. -/
theorem OXM_WriteTo_oversized_counterexample :
    255 < ([] : List Nat).length + (List.replicate 256 7).length ∧
    (OXM.WriteTo ⟨0x8000, 0, [], List.replicate 256 7⟩).map List.length = .ok 260 ∧
    (OXM.WriteTo ⟨0x8000, 0, [], List.replicate 256 7⟩).map (List.take 4) =
      .ok [0x80, 0, 0, 0] := by
  refine ⟨?_, ?_, ?_⟩
  · rw [List.length_replicate]
    decide
  · rw [OXM.WriteTo_eq_wire]
    simp only [Except.map, OXM.wire_length, List.length_nil, List.length_replicate]
  · rw [OXM.WriteTo_eq_wire]
    simp only [Except.map, OXM.wire, List.append_assoc, List.cons_append, List.nil_append,
      List.take_succ_cons, List.take_zero, List.length_nil, List.length_replicate]
    decide

/-- C9, amended: for every OXM with `len(Mask) + len(Value) > 255`,
`OXM.WriteTo` does not fail: it writes three header bytes, the length byte
`(len(Mask) + len(Value)) mod 256`, then all mask bytes and all value
bytes. -/
theorem OXM_WriteTo_oversized_wraps (oxm : OXM)
    (hbig : 255 < oxm.Mask.length + oxm.Value.length) :
    ∃ hdr : List Nat, hdr.length = 3 ∧
      OXM.WriteTo oxm =
        .ok (hdr ++ [(oxm.Mask.length + oxm.Value.length) % 256] ++ oxm.Mask ++ oxm.Value) ∧
      (oxm.Mask.length + oxm.Value.length) % 256 < oxm.Mask.length + oxm.Value.length := by
  refine ⟨[oxm.Class / 256 % 256, oxm.Class % 256,
    (oxm.Field ||| ((oxm.Mask.length % 256) &&& 1)) % 256], rfl, ?_, ?_⟩
  · rw [OXM.WriteTo_eq_wire]
    simp [OXM.wire]
  · omega

set_option maxRecDepth 8192 in
/-- C9, witness of the amended claim, at a value of 256 bytes. -/
theorem OXM_WriteTo_oversized_wraps_witness :
    255 < ([] : List Nat).length + (List.replicate 256 7).length ∧
    ∃ hdr : List Nat, hdr.length = 3 ∧
      OXM.WriteTo ⟨0x8000, 0, [], List.replicate 256 7⟩ =
        .ok (hdr ++ [(([] : List Nat).length + (List.replicate 256 7).length) % 256] ++
          [] ++ List.replicate 256 7) ∧
      (([] : List Nat).length + (List.replicate 256 7).length) % 256 <
        ([] : List Nat).length + (List.replicate 256 7).length :=
  ⟨by rw [List.length_replicate]; decide,
    OXM_WriteTo_oversized_wraps ⟨0x8000, 0, [], List.replicate 256 7⟩
      (show 255 < ([] : List Nat).length + (List.replicate 256 7).length by
        rw [List.length_replicate]; decide)⟩

/-- C10, the code at a failing input: the Match with type 1 and the single OXM
(class 0x8000, field 5, no mask, value `[1, 2]`) is encoded to 16 bytes `b`;
`Match.ReadFrom` decodes `b` without error to a Match whose entry has field 2,
mask `[1]` and value `[2]`; encoding that Match gives 16 bytes whose field
byte is 3 where `b` has 5. -/
theorem Match_reencoding_differs :
    Match.WriteTo ⟨1, [⟨0x8000, 5, [], [1, 2]⟩]⟩ =
      .ok [0, 1, 0, 10, 0x80, 0, 5, 2, 1, 2, 0, 0, 0, 0, 0, 0] ∧
    Match.ReadFrom Match.zero [0, 1, 0, 10, 0x80, 0, 5, 2, 1, 2, 0, 0, 0, 0, 0, 0] =
      ⟨⟨1, [⟨0x8000, 2, [1], [2]⟩]⟩, [0, 0], 20, none⟩ ∧
    Match.WriteTo ⟨1, [⟨0x8000, 2, [1], [2]⟩]⟩ =
      .ok [0, 1, 0, 10, 0x80, 0, 3, 2, 1, 2, 0, 0, 0, 0, 0, 0] ∧
    [0, 1, 0, 10, 0x80, 0, 3, 2, 1, 2, 0, 0, 0, 0, 0, 0] ≠
      [0, 1, 0, 10, 0x80, 0, 5, 2, 1, 2, 0, 0, 0, 0, 0, 0] := by
  decide

/-! ## Big-endian integers and the instruction stream: auxiliary facts -/

theorem binary.beUint_putUint16 (v : Nat) (h : v < 65536) :
    binary.beUint (binary.putUint16 v) = v := by
  simp only [binary.beUint, binary.putUint16, List.foldl_cons, List.foldl_nil]
  omega

theorem binary.beUint_putUint32 (v : Nat) (h : v < 4294967296) :
    binary.beUint (binary.putUint32 v) = v := by
  simp only [binary.beUint, binary.putUint32, List.foldl_cons, List.foldl_nil]
  omega

theorem binary.beUint_putUint64 (v : Nat) (h : v < 18446744073709551616) :
    binary.beUint (binary.putUint64 v) = v := by
  simp only [binary.beUint, binary.putUint64, List.foldl_cons, List.foldl_nil]
  omega

theorem Instructions.writeAll_eq (xs : Instructions) (buf : List Nat) :
    Instructions.writeAll xs buf =
      match Instructions.writeAll xs [] with
      | .error e => .error e
      | .ok bs => .ok (buf ++ bs) := by
  induction xs generalizing buf with
  | nil => simp [Instructions.writeAll]
  | cons x xs ih =>
    simp only [Instructions.writeAll]
    cases hx : instruction.WriteTo x with
    | error e => rfl
    | ok bs =>
      simp only [List.nil_append]
      rw [ih (buf ++ bs), ih bs]
      cases Instructions.writeAll xs [] with
      | error e => rfl
      | ok more => simp

theorem Instructions.WriteTo_eq_writeAll (xs : Instructions) :
    Instructions.WriteTo xs = Instructions.writeAll xs [] := by
  unfold Instructions.WriteTo
  cases Instructions.writeAll xs [] with
  | error e => rfl
  | ok buf => simp [binary.WriteSlice]

theorem Instructions.WriteTo_cons (x : instruction) (xs : Instructions) :
    Instructions.WriteTo (x :: xs) =
      match instruction.WriteTo x with
      | .error e => .error e
      | .ok a =>
        match Instructions.WriteTo xs with
        | .error e => .error e
        | .ok b => .ok (a ++ b) := by
  rw [Instructions.WriteTo_eq_writeAll, Instructions.WriteTo_eq_writeAll]
  simp only [Instructions.writeAll]
  cases hx : instruction.WriteTo x with
  | error e => rfl
  | ok a =>
    simp only [List.nil_append]
    rw [Instructions.writeAll_eq xs a]

/-! ## Byte counts, FlowMod and instructions -/

/-- C11, the code at a failing input: on the 12 bytes
`00 01 00 08 80 00 00 04 01 02 03 04` (a header declaring 8 body bytes, then
one 8-byte OXM entry) `Match.ReadFrom` succeeds, consumes all 12 bytes, which
is 4 plus the declared length, and returns the count 20: the 8 bytes of the
entry are counted once when the body is read and again when the entry is
decoded from the scratch buffer. -/
theorem Match_ReadFrom_count_doubled :
    Match.ReadFrom Match.zero [0, 1, 0, 8, 0x80, 0, 0, 4, 1, 2, 3, 4] =
      ⟨⟨1, [⟨0x8000, 0, [], [1, 2, 3, 4]⟩]⟩, [], 20, none⟩ ∧
    [0, 1, 0, 8, 0x80, 0, 0, 4, 1, 2, 3, 4].length = 4 + binary.beUint [0, 8] ∧
    20 ≠ 4 + binary.beUint [0, 8] := by
  decide

/-- C12: for every FlowMod whose Match encodes to `mb` and whose instructions
encode to `ib`, `FlowMod.WriteTo` writes cookie (8 bytes), cookie mask (8),
table id (1), command (1), idle timeout (2), hard timeout (2), priority (2),
buffer id (4), out port (4), out group (4), flags (2), all big-endian, and 2
zero bytes, a header of 40 bytes, then `mb`, then `ib`, and nothing else; the
total length is `40 + |mb| + |ib|`. -/
theorem FlowMod_WriteTo_layout (f : FlowMod) (mb ib : List Nat)
    (hm : Match.WriteTo f.Match = .ok mb)
    (hi : Instructions.WriteTo f.Instructions = .ok ib) :
    FlowMod.WriteTo f =
      .ok ((binary.putUint64 f.Cookie ++ binary.putUint64 f.CookieMask ++
        binary.putUint8 f.TableID ++ binary.putUint8 f.Command ++
        binary.putUint16 f.IdleTimeout ++ binary.putUint16 f.HardTimeout ++
        binary.putUint16 f.Priority ++ binary.putUint32 f.BufferID ++
        binary.putUint32 f.OutPort ++ binary.putUint32 f.OutGroup ++
        binary.putUint16 f.Flags ++ [0, 0]) ++ mb ++ ib) ∧
    (binary.putUint64 f.Cookie ++ binary.putUint64 f.CookieMask ++
        binary.putUint8 f.TableID ++ binary.putUint8 f.Command ++
        binary.putUint16 f.IdleTimeout ++ binary.putUint16 f.HardTimeout ++
        binary.putUint16 f.Priority ++ binary.putUint32 f.BufferID ++
        binary.putUint32 f.OutPort ++ binary.putUint32 f.OutGroup ++
        binary.putUint16 f.Flags ++ [0, 0]).length = 40 ∧
    ∀ out, FlowMod.WriteTo f = .ok out → out.length = 40 + mb.length + ib.length := by
  have hw : FlowMod.WriteTo f =
      .ok ((binary.putUint64 f.Cookie ++ binary.putUint64 f.CookieMask ++
        binary.putUint8 f.TableID ++ binary.putUint8 f.Command ++
        binary.putUint16 f.IdleTimeout ++ binary.putUint16 f.HardTimeout ++
        binary.putUint16 f.Priority ++ binary.putUint32 f.BufferID ++
        binary.putUint32 f.OutPort ++ binary.putUint32 f.OutGroup ++
        binary.putUint16 f.Flags ++ [0, 0]) ++ mb ++ ib) := by
    simp [FlowMod.WriteTo, hm, hi, binary.WriteSlice, binary.pad]
  refine ⟨hw, by simp [binary.putUint64, binary.putUint32, binary.putUint16, binary.putUint8],
    ?_⟩
  intro out hout
  rw [hw] at hout
  injection hout with hout
  subst hout
  simp [binary.putUint64, binary.putUint32, binary.putUint16, binary.putUint8]
  omega

/-- C12, witness: a FlowMod with an empty Match and one Meter instruction is
written in 40 + 8 + 8 bytes. -/
theorem FlowMod_WriteTo_layout_witness :
    Match.WriteTo ⟨1, []⟩ = .ok [0, 1, 0, 4, 0, 0, 0, 0] ∧
    Instructions.WriteTo [.meter ⟨7⟩] = .ok [0, 6, 0, 8, 0, 0, 0, 7] ∧
    FlowMod.WriteTo ⟨1, 2, 3, 0, 10, 20, 100, 0xffffffff, 5, 6, 1, ⟨1, []⟩, [.meter ⟨7⟩]⟩ =
      .ok ((binary.putUint64 1 ++ binary.putUint64 2 ++ binary.putUint8 3 ++
        binary.putUint8 0 ++ binary.putUint16 10 ++ binary.putUint16 20 ++
        binary.putUint16 100 ++ binary.putUint32 0xffffffff ++ binary.putUint32 5 ++
        binary.putUint32 6 ++ binary.putUint16 1 ++ [0, 0]) ++
        [0, 1, 0, 4, 0, 0, 0, 0] ++ [0, 6, 0, 8, 0, 0, 0, 7]) :=
  ⟨by decide, by decide,
    (FlowMod_WriteTo_layout
      ⟨1, 2, 3, 0, 10, 20, 100, 0xffffffff, 5, 6, 1, ⟨1, []⟩, [.meter ⟨7⟩]⟩
      [0, 1, 0, 4, 0, 0, 0, 0] [0, 6, 0, 8, 0, 0, 0, 7] (by decide) (by decide)).1⟩

/-- C13: for every `InstructionActions` with type `t` whose action list
encodes to the bytes `a` with `len(a) + 8 < 65536`, `InstructionActions.WriteTo`
writes `t` as 16-bit big-endian, `8 + len(a)` as 16-bit big-endian, 4 zero
bytes and then `a`; the length field reads back as `8 + len(a)`, which is the
number of bytes written and a multiple of 8 whenever `len(a)` is; with no
actions the instruction is written in exactly 8 bytes. -/
theorem InstructionActions_WriteTo_layout (t : Nat) (acts : Actions) (a : List Nat)
    (ha : Actions.WriteTo acts = .ok a) (hlen : a.length + 8 < 65536) :
    InstructionActions.WriteTo ⟨t, acts⟩ =
      .ok (binary.putUint16 t ++ binary.putUint16 (8 + a.length) ++ [0, 0, 0, 0] ++ a) ∧
    binary.beUint (binary.putUint16 (8 + a.length)) = 8 + a.length ∧
    (binary.putUint16 t ++ binary.putUint16 (8 + a.length) ++ [0, 0, 0, 0] ++ a).length =
      8 + a.length ∧
    (a.length % 8 = 0 → (8 + a.length) % 8 = 0) ∧
    InstructionActions.WriteTo ⟨t, []⟩ = .ok (binary.putUint16 t ++ [0, 8, 0, 0, 0, 0]) ∧
    (binary.putUint16 t ++ [0, 8, 0, 0, 0, 0]).length = 8 := by
  have hmod : (a.length % 65536 + 8) % 65536 = 8 + a.length := by omega
  refine ⟨?_, binary.beUint_putUint16 _ (by omega), ?_, fun h => by omega, ?_, ?_⟩
  · simp [InstructionActions.WriteTo, ha, hmod, binary.WriteSlice, binary.pad,
      instructionhdr.bytes]
  · simp [binary.putUint16]
    omega
  · simp [InstructionActions.WriteTo, Actions.WriteTo, binary.WriteSlice, binary.pad,
      instructionhdr.bytes, binary.putUint16]
  · simp [binary.putUint16]

/-- C13, witness: Apply-Actions with the single action `Output{3, 65535}`. -/
theorem InstructionActions_WriteTo_layout_witness :
    Actions.WriteTo [ActionOutput 3 65535] =
      .ok [0, 0, 0, 16, 0, 0, 0, 3, 255, 255, 0, 0, 0, 0, 0, 0] ∧
    [0, 0, 0, 16, 0, 0, 0, 3, 255, 255, 0, 0, 0, 0, 0, 0].length + 8 < 65536 ∧
    InstructionActions.WriteTo ⟨IT_APPLY_ACTIONS, [ActionOutput 3 65535]⟩ =
      .ok (binary.putUint16 IT_APPLY_ACTIONS ++
        binary.putUint16 (8 + [0, 0, 0, 16, 0, 0, 0, 3, 255, 255, 0, 0, 0, 0, 0, 0].length) ++
        [0, 0, 0, 0] ++ [0, 0, 0, 16, 0, 0, 0, 3, 255, 255, 0, 0, 0, 0, 0, 0]) :=
  ⟨by decide, by decide,
    (InstructionActions_WriteTo_layout IT_APPLY_ACTIONS [ActionOutput 3 65535]
      [0, 0, 0, 16, 0, 0, 0, 3, 255, 255, 0, 0, 0, 0, 0, 0] (by decide) (by decide)).1⟩

/-- C14: for every table id (a `uint8`) `InstructionGotoTable` is written as the
8 bytes `00 01 00 08`, table id, `00 00 00`; for every metadata and mask
(`uint64`) `InstructionWriteMetadata` is written as the 24 bytes
`00 02 00 18`, four zero bytes, the metadata as 8 big-endian bytes and the
mask as 8 big-endian bytes; for every meter id (a `uint32`) `InstructionMeter`
is written as the 8 bytes `00 06 00 08` and the meter id as 4 big-endian
bytes. The length fields 8, 24 and 8 are the numbers of bytes written and
multiples of 8. -/
theorem Instruction_fixed_layouts (tid md mask mid : Nat) (htid : tid < 256)
    (hmd : md < 18446744073709551616) (hmask : mask < 18446744073709551616)
    (hmid : mid < 4294967296) :
    InstructionGotoTable.WriteTo ⟨tid⟩ = .ok [0x00, 0x01, 0x00, 0x08, tid, 0, 0, 0] ∧
    InstructionWriteMetadata.WriteTo ⟨md, mask⟩ =
      .ok ([0x00, 0x02, 0x00, 0x18, 0, 0, 0, 0] ++ binary.putUint64 md ++
        binary.putUint64 mask) ∧
    InstructionMeter.WriteTo ⟨mid⟩ = .ok ([0x00, 0x06, 0x00, 0x08] ++ binary.putUint32 mid) ∧
    (binary.putUint64 md).length = 8 ∧ binary.beUint (binary.putUint64 md) = md ∧
    (binary.putUint64 mask).length = 8 ∧ binary.beUint (binary.putUint64 mask) = mask ∧
    (binary.putUint32 mid).length = 4 ∧ binary.beUint (binary.putUint32 mid) = mid ∧
    (InstructionGotoTable.WriteTo ⟨tid⟩).map
        (fun out => (instructionhdr.lengthField out, out.length, out.length % 8)) = .ok (8, 8, 0) ∧
    (InstructionWriteMetadata.WriteTo ⟨md, mask⟩).map
        (fun out => (instructionhdr.lengthField out, out.length, out.length % 8)) = .ok (24, 24, 0) ∧
    (InstructionMeter.WriteTo ⟨mid⟩).map
        (fun out => (instructionhdr.lengthField out, out.length, out.length % 8)) = .ok (8, 8, 0) := by
  have hg : InstructionGotoTable.WriteTo ⟨tid⟩ =
      .ok [0x00, 0x01, 0x00, 0x08, tid, 0, 0, 0] := by
    simp [InstructionGotoTable.WriteTo, binary.WriteSlice, instructionhdr.bytes,
      binary.putUint16, binary.putUint8, binary.pad, IT_GOTO_TABLE, Nat.mod_eq_of_lt htid]
  have hw : InstructionWriteMetadata.WriteTo ⟨md, mask⟩ =
      .ok ([0x00, 0x02, 0x00, 0x18, 0, 0, 0, 0] ++ binary.putUint64 md ++
        binary.putUint64 mask) := by
    simp [InstructionWriteMetadata.WriteTo, binary.WriteSlice, instructionhdr.bytes,
      binary.putUint16, binary.pad, IT_WRITE_METADATA]
  have hme : InstructionMeter.WriteTo ⟨mid⟩ =
      .ok ([0x00, 0x06, 0x00, 0x08] ++ binary.putUint32 mid) := by
    simp [InstructionMeter.WriteTo, binary.WriteSlice, instructionhdr.bytes,
      binary.putUint16, IT_METER]
  refine ⟨hg, hw, hme, rfl, binary.beUint_putUint64 md hmd, rfl,
    binary.beUint_putUint64 mask hmask, rfl, binary.beUint_putUint32 mid hmid, ?_, ?_, ?_⟩
  · rw [hg]
    simp [Except.map, instructionhdr.lengthField, binary.beUint]
  · rw [hw]
    simp [Except.map, instructionhdr.lengthField, binary.beUint, binary.putUint64]
  · rw [hme]
    simp [Except.map, instructionhdr.lengthField, binary.beUint, binary.putUint32]

/-- C14, witness: table 5, metadata 0x0102030405060708 with mask 0xff, meter 7. -/
theorem Instruction_fixed_layouts_witness :
    InstructionGotoTable.WriteTo ⟨5⟩ = .ok [0x00, 0x01, 0x00, 0x08, 5, 0, 0, 0] ∧
    InstructionWriteMetadata.WriteTo ⟨0x0102030405060708, 0xff⟩ =
      .ok [0x00, 0x02, 0x00, 0x18, 0, 0, 0, 0, 1, 2, 3, 4, 5, 6, 7, 8,
        0, 0, 0, 0, 0, 0, 0, 0xff] ∧
    InstructionMeter.WriteTo ⟨7⟩ = .ok [0x00, 0x06, 0x00, 0x08, 0, 0, 0, 7] :=
  ⟨(Instruction_fixed_layouts 5 0x0102030405060708 0xff 7 (by decide) (by decide)
      (by decide) (by decide)).1,
    (Instruction_fixed_layouts 5 0x0102030405060708 0xff 7 (by decide) (by decide)
      (by decide) (by decide)).2.1.trans (by decide),
    (Instruction_fixed_layouts 5 0x0102030405060708 0xff 7 (by decide) (by decide)
      (by decide) (by decide)).2.2.1.trans (by decide)⟩

/-- C15: the instruction stream is plain concatenation. For all instruction
lists `xs` and `ys`, `Instructions.WriteTo (xs ++ ys)` fails when one of the
two lists fails to encode and otherwise gives the bytes of
`Instructions.WriteTo xs` followed by those of `Instructions.WriteTo ys`; the
empty list is written as zero bytes and a one-element list as that
instruction's own encoding. -/
theorem Instructions_WriteTo_concat (xs ys : Instructions) (i : instruction) :
    Instructions.WriteTo (xs ++ ys) =
      (match Instructions.WriteTo xs with
        | .error e => .error e
        | .ok a =>
          match Instructions.WriteTo ys with
          | .error e => .error e
          | .ok b => .ok (a ++ b)) ∧
    Instructions.WriteTo [] = .ok [] ∧
    Instructions.WriteTo [i] = instruction.WriteTo i := by
  have hnil : Instructions.WriteTo [] = .ok [] := by
    simp [Instructions.WriteTo, Instructions.writeAll, binary.WriteSlice]
  refine ⟨?_, hnil, ?_⟩
  · induction xs with
    | nil =>
      rw [hnil]
      simp only [List.nil_append]
      cases Instructions.WriteTo ys with
      | error e => rfl
      | ok b => rfl
    | cons x xs ih =>
      rw [List.cons_append, Instructions.WriteTo_cons, Instructions.WriteTo_cons, ih]
      cases instruction.WriteTo x with
      | error e => rfl
      | ok a =>
        cases Instructions.WriteTo xs with
        | error e => rfl
        | ok b =>
          cases Instructions.WriteTo ys with
          | error e => rfl
          | ok c => simp
  · rw [Instructions.WriteTo_cons, hnil]
    cases instruction.WriteTo i with
    | error e => rfl
    | ok a => simp

/-- C16: for every OXM with `len(Mask) + len(Value) <= 255`, `OXM.WriteTo` writes
exactly `4 + len(Mask) + len(Value)` bytes: the class as 2 big-endian bytes,
one field byte, the length byte `len(Mask) + len(Value)`, the mask bytes and
then the value bytes. -/
theorem OXM_WriteTo_length_and_order (oxm : OXM)
    (hlen : oxm.Mask.length + oxm.Value.length ≤ 255) :
    ∃ fieldByte : Nat,
      OXM.WriteTo oxm =
        .ok (binary.putUint16 oxm.Class ++
          [fieldByte, oxm.Mask.length + oxm.Value.length] ++ oxm.Mask ++ oxm.Value) ∧
      (binary.putUint16 oxm.Class ++
          [fieldByte, oxm.Mask.length + oxm.Value.length] ++ oxm.Mask ++ oxm.Value).length =
        4 + oxm.Mask.length + oxm.Value.length := by
  refine ⟨(oxm.Field ||| ((oxm.Mask.length % 256) &&& 1)) % 256, ?_, ?_⟩
  · rw [OXM.WriteTo_eq_wire]
    have h : (oxm.Mask.length + oxm.Value.length) % 256 =
        oxm.Mask.length + oxm.Value.length := Nat.mod_eq_of_lt (by omega)
    simp [OXM.wire, binary.putUint16, h]
  · simp [binary.putUint16]
    omega

/-- C16, witness: a masked entry with two mask and two value bytes. -/
theorem OXM_WriteTo_length_and_order_witness :
    [0xff, 0x00].length + [0x12, 0x34].length ≤ 255 ∧
    ∃ fieldByte : Nat,
      OXM.WriteTo ⟨0x8000, 0, [0xff, 0x00], [0x12, 0x34]⟩ =
        .ok (binary.putUint16 0x8000 ++
          [fieldByte, [0xff, 0x00].length + [0x12, 0x34].length] ++ [0xff, 0x00] ++
          [0x12, 0x34]) ∧
      (binary.putUint16 0x8000 ++
          [fieldByte, [0xff, 0x00].length + [0x12, 0x34].length] ++ [0xff, 0x00] ++
          [0x12, 0x34]).length = 4 + [0xff, 0x00].length + [0x12, 0x34].length :=
  ⟨by decide, OXM_WriteTo_length_and_order ⟨0x8000, 0, [0xff, 0x00], [0x12, 0x34]⟩ (by decide)⟩

/-! ## Buckets -/

theorem Actions.WriteTo_of_forall₂ (acts : Actions) (encs : List (List Nat))
    (h : List.Forall₂ (fun a e => Action.WriteTo a = .ok e) acts encs) :
    Actions.WriteTo acts = .ok encs.flatten := by
  induction h with
  | nil => rfl
  | cons hx _ ih => simp [Actions.WriteTo, hx, ih]

theorem Actions.forall₂_of_WriteTo (acts : Actions) (scratch : List Nat)
    (h : Actions.WriteTo acts = .ok scratch) :
    ∃ encs : List (List Nat),
      List.Forall₂ (fun a e => Action.WriteTo a = .ok e) acts encs ∧
      scratch = encs.flatten := by
  induction acts generalizing scratch with
  | nil =>
    simp only [Actions.WriteTo, Except.ok.injEq] at h
    exact ⟨[], List.Forall₂.nil, by simp [← h]⟩
  | cons x xs ih =>
    simp only [Actions.WriteTo] at h
    cases hx : Action.WriteTo x with
    | error e => simp [hx] at h
    | ok bs =>
      cases hxs : Actions.WriteTo xs with
      | error e => simp [hx, hxs] at h
      | ok more =>
        simp only [hx, hxs, Except.ok.injEq] at h
        obtain ⟨encs, hf, hmore⟩ := ih more hxs
        exact ⟨bs :: encs, List.Forall₂.cons hx hf, by simp [← h, hmore]⟩

/-- C17: for every Bucket whose actions encode to the records `encs` and whose
size `16 + sum of the sizes of the records` fits the 16-bit length field,
the encoding is that length as 16-bit big-endian, then weight (2 bytes),
watch port (4), watch group (4), 4 zero bytes and the action records; every
encoding a Bucket has is of this form; and the Bucket with weight 42, watch
port 5, watch group 7 and the actions CopyTTLIn and Output (port 3, maxlen
65535) is encoded as the 40 bytes asserted by `TestBucket`, with length field
`0x0028`. -/
theorem Bucket_WriteTo_length (b : Bucket) (encs : List (List Nat))
    (henc : List.Forall₂ (fun a e => Action.WriteTo a = .ok e) b.Actions encs)
    (hfit : 16 + (encs.map List.length).sum ≤ 65535) :
    Bucket.WriteTo b =
      .ok (binary.putUint16 (16 + (encs.map List.length).sum) ++
        binary.putUint16 b.Weight ++ binary.putUint32 b.WatchPort ++
        binary.putUint32 b.WatchGroup ++ [0, 0, 0, 0] ++ encs.flatten) ∧
    binary.beUint (binary.putUint16 (16 + (encs.map List.length).sum)) =
      16 + (encs.map List.length).sum ∧
    (∀ out, Bucket.WriteTo b = .ok out →
      ∃ recs : List (List Nat),
        List.Forall₂ (fun a e => Action.WriteTo a = .ok e) b.Actions recs ∧
        16 + (recs.map List.length).sum ≤ 65535 ∧
        out = binary.putUint16 (16 + (recs.map List.length).sum) ++
          binary.putUint16 b.Weight ++ binary.putUint32 b.WatchPort ++
          binary.putUint32 b.WatchGroup ++ [0, 0, 0, 0] ++ recs.flatten) ∧
    Bucket.WriteTo ⟨42, 5, 7, [ActionCopyTTLIn, ActionOutput 3 65535]⟩ =
      .ok [0x00, 0x28, 0x00, 0x2a, 0x00, 0x00, 0x00, 0x05, 0x00, 0x00, 0x00, 0x07,
        0x00, 0x00, 0x00, 0x00,
        0x00, 0x0c, 0x00, 0x08, 0x00, 0x00, 0x00, 0x00,
        0x00, 0x00, 0x00, 0x10, 0x00, 0x00, 0x00, 0x03, 0xff, 0xff,
        0x00, 0x00, 0x00, 0x00, 0x00, 0x00] := by
  have hshape : ∀ (recs : List (List Nat)),
      List.Forall₂ (fun a e => Action.WriteTo a = .ok e) b.Actions recs →
      16 + (recs.map List.length).sum ≤ 65535 →
      Bucket.WriteTo b =
        .ok (binary.putUint16 (16 + (recs.map List.length).sum) ++
          binary.putUint16 b.Weight ++ binary.putUint32 b.WatchPort ++
          binary.putUint32 b.WatchGroup ++ [0, 0, 0, 0] ++ recs.flatten) := by
    intro recs hrecs hle
    have hlen : recs.flatten.length = (recs.map List.length).sum := List.length_flatten recs
    have hnot : ¬ 16 + recs.flatten.length > 65535 := by omega
    simp [Bucket.WriteTo, Actions.WriteTo_of_forall₂ _ _ hrecs, hnot, binary.WriteSlice,
      binary.pad, hlen, hle]
  refine ⟨hshape encs henc hfit, binary.beUint_putUint16 _ (by omega), ?_, by decide⟩
  intro out hout
  cases hacts : Actions.WriteTo b.Actions with
  | error e => simp [Bucket.WriteTo, hacts] at hout
  | ok scratch =>
    obtain ⟨recs, hrecs, hscratch⟩ := Actions.forall₂_of_WriteTo _ _ hacts
    have hlen : recs.flatten.length = (recs.map List.length).sum := List.length_flatten recs
    by_cases hbig : 16 + scratch.length > 65535
    · simp [Bucket.WriteTo, hacts, hbig] at hout
    · have hle : 16 + (recs.map List.length).sum ≤ 65535 := by
        rw [← hlen, ← hscratch]; omega
      refine ⟨recs, hrecs, hle, ?_⟩
      rw [hshape recs hrecs hle] at hout
      injection hout with hout
      exact hout.symm

/-- C17, witness: the Bucket of `TestBucket`, whose two action records have 8
and 16 bytes. -/
theorem Bucket_WriteTo_length_witness :
    16 + ([[0x00, 0x0c, 0x00, 0x08, 0, 0, 0, 0],
      [0x00, 0x00, 0x00, 0x10, 0, 0, 0, 3, 0xff, 0xff, 0, 0, 0, 0, 0, 0]].map
        List.length).sum = 0x28 ∧
    Bucket.WriteTo ⟨42, 5, 7, [ActionCopyTTLIn, ActionOutput 3 65535]⟩ =
      .ok (binary.putUint16
          (16 + ([[0x00, 0x0c, 0x00, 0x08, 0, 0, 0, 0],
            [0x00, 0x00, 0x00, 0x10, 0, 0, 0, 3, 0xff, 0xff, 0, 0, 0, 0, 0, 0]].map
              List.length).sum) ++
        binary.putUint16 42 ++ binary.putUint32 5 ++ binary.putUint32 7 ++ [0, 0, 0, 0] ++
        [[0x00, 0x0c, 0x00, 0x08, 0, 0, 0, 0],
          [0x00, 0x00, 0x00, 0x10, 0, 0, 0, 3, 0xff, 0xff, 0, 0, 0, 0, 0, 0]].flatten) :=
  ⟨by decide,
    (Bucket_WriteTo_length ⟨42, 5, 7, [ActionCopyTTLIn, ActionOutput 3 65535]⟩
      [[0x00, 0x0c, 0x00, 0x08, 0, 0, 0, 0],
        [0x00, 0x00, 0x00, 0x10, 0, 0, 0, 3, 0xff, 0xff, 0, 0, 0, 0, 0, 0]]
      (List.Forall₂.cons (by decide) (List.Forall₂.cons (by decide) List.Forall₂.nil))
      (by decide)).1⟩

/-! ## Sizes on the decoding side -/

theorem OXM.wire_of_forall₂ (xs : List OXM) (encs : List (List Nat))
    (h : List.Forall₂ (fun oxm e => OXM.WriteTo oxm = .ok e) xs encs) :
    encs = xs.map OXM.wire := by
  induction h with
  | nil => rfl
  | cons hx _ ih =>
    rw [OXM.WriteTo_eq_wire] at hx
    injection hx with hx
    simp [hx, ih]

/-- C18: for every Match whose OXM entries encode to `s` bytes in total with
`4 + s < 65536`, and with `r = (4 + s) % 8`: `Match.WriteTo` writes
`4 + s + (8 - r)` bytes whose length field is `4 + s`. `Match.ReadFrom`, given
those bytes (followed by any further bytes `extra`), asks for `4 + (4 + s)`
bytes: it fails for lack of input when fewer are there, and otherwise leaves
the reader exactly `4 + (4 + s)` bytes further. So, given exactly the
encoding: if `r >= 5` it fails for lack of input; if `r <= 4` exactly `4 - r`
bytes of the encoding are left unread; whenever it succeeds, `r <= 4`,
`4 - r` bytes are left, and nothing is left exactly when `s` is a multiple
of 8. -/
theorem Match_encoder_decoder_sizes (m m0 : Match) (encs : List (List Nat))
    (henc : List.Forall₂ (fun oxm e => OXM.WriteTo oxm = .ok e) m.OXMFields encs)
    (hs : 4 + encs.flatten.length < 65536) :
    ∃ out : List Nat,
      Match.WriteTo m = .ok out ∧
      out.length = 4 + encs.flatten.length + (8 - (4 + encs.flatten.length) % 8) ∧
      Match.lengthField out = 4 + encs.flatten.length ∧
      (∀ extra : List Nat, (out ++ extra).length < 4 + (4 + encs.flatten.length) →
        (Match.ReadFrom m0 (out ++ extra)).err = some .TruncatedInput ∧
        (Match.ReadFrom m0 (out ++ extra)).recv.OXMFields = m0.OXMFields) ∧
      (∀ extra : List Nat, 4 + (4 + encs.flatten.length) ≤ (out ++ extra).length →
        (Match.ReadFrom m0 (out ++ extra)).rest =
          (out ++ extra).drop (4 + (4 + encs.flatten.length))) ∧
      (5 ≤ (4 + encs.flatten.length) % 8 →
        (Match.ReadFrom m0 out).err = some .TruncatedInput) ∧
      ((4 + encs.flatten.length) % 8 ≤ 4 →
        (Match.ReadFrom m0 out).rest = out.drop (4 + (4 + encs.flatten.length)) ∧
        (Match.ReadFrom m0 out).rest.length = 4 - (4 + encs.flatten.length) % 8) ∧
      ((Match.ReadFrom m0 out).err = none →
        (4 + encs.flatten.length) % 8 ≤ 4 ∧
        (Match.ReadFrom m0 out).rest.length = 4 - (4 + encs.flatten.length) % 8 ∧
        ((Match.ReadFrom m0 out).rest = [] ↔ encs.flatten.length % 8 = 0)) := by
  rw [OXM.wire_of_forall₂ _ _ henc] at hs ⊢
  generalize hbody : (m.OXMFields.map OXM.wire).flatten = body at hs ⊢
  have hout : Match.WriteTo m =
      .ok (m.Typ / 256 % 256 :: m.Typ % 256 :: (4 + body.length) / 256 % 256 ::
        (4 + body.length) % 256 ::
        (body ++ List.replicate (8 - (4 + body.length) % 8) 0)) := by
    rw [Match.WriteTo_eq, hbody, Nat.mod_eq_of_lt hs]
    simp [binary.putUint16]
  have hdecl : (4 + body.length) / 256 % 256 * 256 + (4 + body.length) % 256 =
      4 + body.length := by omega
  have hshort : ∀ extra : List Nat,
      (body ++ List.replicate (8 - (4 + body.length) % 8) 0 ++ extra).length <
        4 + body.length →
      (Match.ReadFrom m0 (m.Typ / 256 % 256 :: m.Typ % 256 ::
        (4 + body.length) / 256 % 256 :: (4 + body.length) % 256 ::
        (body ++ List.replicate (8 - (4 + body.length) % 8) 0 ++ extra))).err =
          some .TruncatedInput ∧
      (Match.ReadFrom m0 (m.Typ / 256 % 256 :: m.Typ % 256 ::
        (4 + body.length) / 256 % 256 :: (4 + body.length) % 256 ::
        (body ++ List.replicate (8 - (4 + body.length) % 8) 0 ++ extra))).recv.OXMFields =
          m0.OXMFields := by
    intro extra hlt
    rw [Match.ReadFrom_cons, hdecl, binary.Read_short _ _ hlt]
    exact ⟨rfl, rfl⟩
  have hfull : ∀ extra : List Nat,
      4 + body.length ≤
        (body ++ List.replicate (8 - (4 + body.length) % 8) 0 ++ extra).length →
      (Match.ReadFrom m0 (m.Typ / 256 % 256 :: m.Typ % 256 ::
        (4 + body.length) / 256 % 256 :: (4 + body.length) % 256 ::
        (body ++ List.replicate (8 - (4 + body.length) % 8) 0 ++ extra))).rest =
      (body ++ List.replicate (8 - (4 + body.length) % 8) 0 ++ extra).drop
        (4 + body.length) := by
    intro extra hle
    rw [Match.ReadFrom_cons, hdecl, binary.Read_ok _ _ hle]
  have hlenpad : (body ++ List.replicate (8 - (4 + body.length) % 8) 0).length =
      body.length + (8 - (4 + body.length) % 8) := by
    simp only [List.length_append, List.length_replicate]
  have hdrop4 : ∀ l : List Nat,
      (m.Typ / 256 % 256 :: m.Typ % 256 :: (4 + body.length) / 256 % 256 ::
        (4 + body.length) % 256 :: l).drop (4 + (4 + body.length)) =
      l.drop (4 + body.length) := by
    intro l
    rw [show 4 + (4 + body.length) = (4 + body.length) + 4 by omega]
    simp only [List.drop_succ_cons]
  have hnil := hfull []
  simp only [List.append_nil] at hnil
  refine ⟨_, hout, ?_, ?_, ?_, ?_, ?_, ?_, ?_⟩
  · simp only [List.length_cons, hlenpad]
    omega
  · simp only [Match.lengthField, List.drop_succ_cons, List.drop_zero, List.take_succ_cons,
      List.take_zero, binary.beUint, List.foldl_cons, List.foldl_nil]
    omega
  · intro extra hlt
    simp only [List.cons_append] at hlt ⊢
    exact hshort extra (by simp only [List.length_cons] at hlt; omega)
  · intro extra hle
    simp only [List.cons_append] at hle ⊢
    rw [hdrop4]
    exact hfull extra (by simp only [List.length_cons] at hle; omega)
  · intro hr
    have h := hshort [] (by simp only [List.append_nil, hlenpad]; omega)
    simp only [List.append_nil] at h
    exact h.1
  · intro hr
    rw [hdrop4, hnil (by rw [hlenpad]; omega)]
    refine ⟨rfl, ?_⟩
    simp only [List.length_drop, hlenpad]
    omega
  · intro herr
    by_cases hr : 5 ≤ (4 + body.length) % 8
    · have h := hshort [] (by simp only [List.append_nil, hlenpad]; omega)
      simp only [List.append_nil] at h
      rw [h.1] at herr
      exact absurd herr (by simp)
    · have hrest : (Match.ReadFrom m0 (m.Typ / 256 % 256 :: m.Typ % 256 ::
          (4 + body.length) / 256 % 256 :: (4 + body.length) % 256 ::
          (body ++ List.replicate (8 - (4 + body.length) % 8) 0))).rest.length =
          4 - (4 + body.length) % 8 := by
        rw [hnil (by rw [hlenpad]; omega)]
        simp only [List.length_drop, hlenpad]
        omega
      refine ⟨by omega, hrest, ?_⟩
      rw [← List.length_eq_zero, hrest]
      omega

/-- C18, witness: one OXM with a four-byte value, `s = 8` and `r = 4`; the 16
bytes of the encoding are decoded without error and consumed entirely. -/
theorem Match_encoder_decoder_sizes_witness :
    4 + [[0x80, 0, 0, 4, 1, 2, 3, 4]].flatten.length < 65536 ∧
    Match.WriteTo ⟨1, [⟨0x8000, 0, [], [1, 2, 3, 4]⟩]⟩ =
      .ok [0, 1, 0, 12, 0x80, 0, 0, 4, 1, 2, 3, 4, 0, 0, 0, 0] ∧
    (Match.ReadFrom Match.zero
      [0, 1, 0, 12, 0x80, 0, 0, 4, 1, 2, 3, 4, 0, 0, 0, 0]).err = none ∧
    (Match.ReadFrom Match.zero
      [0, 1, 0, 12, 0x80, 0, 0, 4, 1, 2, 3, 4, 0, 0, 0, 0]).rest = [] ∧
    (Match.ReadFrom Match.zero
      [0, 1, 0, 12, 0x80, 0, 0, 4, 1, 2, 3, 4, 0, 0, 0, 0]).recv =
      ⟨1, [⟨0x8000, 0, [], [1, 2, 3, 4]⟩]⟩ := by
  obtain ⟨out, hout, _, _, _, _, _, _, hsucc⟩ :=
    Match_encoder_decoder_sizes ⟨1, [⟨0x8000, 0, [], [1, 2, 3, 4]⟩]⟩ Match.zero
      [[0x80, 0, 0, 4, 1, 2, 3, 4]]
      (List.Forall₂.cons (by decide) List.Forall₂.nil) (by decide)
  have hbytes : Match.WriteTo ⟨1, [⟨0x8000, 0, [], [1, 2, 3, 4]⟩]⟩ =
      .ok [0, 1, 0, 12, 0x80, 0, 0, 4, 1, 2, 3, 4, 0, 0, 0, 0] := by decide
  have hsame : out = [0, 1, 0, 12, 0x80, 0, 0, 4, 1, 2, 3, 4, 0, 0, 0, 0] := by
    rw [hbytes] at hout
    injection hout with hout
    exact hout.symm
  subst hsame
  have herr : (Match.ReadFrom Match.zero
      [0, 1, 0, 12, 0x80, 0, 0, 4, 1, 2, 3, 4, 0, 0, 0, 0]).err = none := by decide
  exact ⟨by decide, hbytes, herr, ((hsucc herr).2.2).mpr (by decide), by decide⟩

/-- C19: for every input on which `OXM.ReadFrom` succeeds, the input starts
with two class bytes, a field byte `f` and a length byte `L`; the returned
count is the number of bytes consumed (the reader left is the input without
its first `n` bytes), which is `4 + L` when the low bit of `f` is clear and
`4 + 2 * (L / 2)` when it is set; for a masked record with odd `L` that is
one byte fewer than `4 + L`. -/
theorem OXM_ReadFrom_count (oxm : OXM) (r : List Nat)
    (hok : (OXM.ReadFrom oxm r).err = none) :
    ∃ c1 c0 f L : Nat, ∃ payload : List Nat,
      r = c1 :: c0 :: f :: L :: payload ∧
      (OXM.ReadFrom oxm r).n ≤ r.length ∧
      (OXM.ReadFrom oxm r).rest = r.drop (OXM.ReadFrom oxm r).n ∧
      (f &&& 1 = 0 → (OXM.ReadFrom oxm r).n = 4 + L) ∧
      (f &&& 1 = 1 → (OXM.ReadFrom oxm r).n = 4 + 2 * (L / 2)) ∧
      (f &&& 1 = 1 → L % 2 = 1 → (OXM.ReadFrom oxm r).n + 1 = 4 + L) := by
  by_cases hr : r.length < 4
  · simp [OXM.ReadFrom, binary.ReadSlice_oxm_short r hr] at hok
  · obtain ⟨c1, c0, f, L, payload, rfl⟩ :
        ∃ a b c d r1, r = a :: b :: c :: d :: r1 := by
      rcases r with _ | ⟨a, _ | ⟨b, _ | ⟨c, _ | ⟨d, r1⟩⟩⟩⟩
      · simp at hr
      · simp at hr
      · simp at hr
      · simp at hr
      · exact ⟨a, b, c, d, r1, rfl⟩
    refine ⟨c1, c0, f, L, payload, rfl, ?_⟩
    simp only [OXM.ReadFrom, binary.ReadSlice_oxm_header] at hok ⊢
    by_cases hf : f &&& 1 = 1
    · simp only [hf, decide_True, if_true] at hok ⊢
      by_cases h1 : L / 2 ≤ payload.length
      · rw [binary.Read_ok _ _ h1] at hok ⊢
        simp only at hok ⊢
        by_cases h2 : L / 2 ≤ (payload.drop (L / 2)).length
        · rw [binary.Read_ok _ _ h2]
          simp only [List.length_drop, List.length_cons] at h2 ⊢
          refine ⟨by omega, ?_, fun h => by omega, fun _ => by omega, fun _ _ => by omega⟩
          rw [show 4 + L / 2 + L / 2 = (L / 2 + L / 2) + 4 by omega]
          simp only [List.drop_succ_cons, List.drop_drop]
        · rw [binary.Read_short _ _ (Nat.lt_of_not_le h2)] at hok
          simp at hok
      · rw [binary.Read_short _ _ (Nat.lt_of_not_le h1)] at hok
        simp at hok
    · have hf0 : f &&& 1 = 0 := by
        rw [Nat.and_one_is_mod] at hf ⊢; omega
      simp only [hf, decide_False, Bool.false_eq_true, if_false] at hok ⊢
      by_cases h1 : L ≤ payload.length
      · rw [binary.Read_ok _ _ h1]
        simp only [List.length_cons]
        refine ⟨by omega, ?_, fun _ => trivial, fun h => h.elim, fun h => h.elim⟩
        rw [show 4 + L = L + 4 by omega]
        simp only [List.drop_succ_cons]
      · rw [binary.Read_short _ _ (Nat.lt_of_not_le h1)] at hok
        simp at hok

/-- C19, witness: the masked record `80 00 01 03 aa bb` with the odd length
byte 3 is decoded with count 6, one fewer than 4 + 3, leaving the byte
`cc`. -/
theorem OXM_ReadFrom_count_witness :
    (OXM.ReadFrom OXM.zero [0x80, 0, 1, 3, 0xaa, 0xbb, 0xcc]).err = none ∧
    (OXM.ReadFrom OXM.zero [0x80, 0, 1, 3, 0xaa, 0xbb, 0xcc]).n = 6 ∧
    (OXM.ReadFrom OXM.zero [0x80, 0, 1, 3, 0xaa, 0xbb, 0xcc]).rest = [0xcc] ∧
    ∃ c1 c0 f L : Nat, ∃ payload : List Nat,
      [0x80, 0, 1, 3, 0xaa, 0xbb, 0xcc] = c1 :: c0 :: f :: L :: payload ∧
      (OXM.ReadFrom OXM.zero [0x80, 0, 1, 3, 0xaa, 0xbb, 0xcc]).n ≤
        [0x80, 0, 1, 3, 0xaa, 0xbb, 0xcc].length ∧
      (OXM.ReadFrom OXM.zero [0x80, 0, 1, 3, 0xaa, 0xbb, 0xcc]).rest =
        [0x80, 0, 1, 3, 0xaa, 0xbb, 0xcc].drop
          (OXM.ReadFrom OXM.zero [0x80, 0, 1, 3, 0xaa, 0xbb, 0xcc]).n ∧
      (f &&& 1 = 0 → (OXM.ReadFrom OXM.zero [0x80, 0, 1, 3, 0xaa, 0xbb, 0xcc]).n = 4 + L) ∧
      (f &&& 1 = 1 →
        (OXM.ReadFrom OXM.zero [0x80, 0, 1, 3, 0xaa, 0xbb, 0xcc]).n = 4 + 2 * (L / 2)) ∧
      (f &&& 1 = 1 → L % 2 = 1 →
        (OXM.ReadFrom OXM.zero [0x80, 0, 1, 3, 0xaa, 0xbb, 0xcc]).n + 1 = 4 + L) :=
  ⟨by decide, by decide, by decide,
    OXM_ReadFrom_count OXM.zero [0x80, 0, 1, 3, 0xaa, 0xbb, 0xcc] (by decide)⟩

/-! ## Termination of the scan loop -/

/-- Every entry the scan loop adds costs at least four bytes of the scratch
buffer. -/
theorem Match.scanFields_entries (fuel : Nat) (m : Match) (rbuf : List Nat) (n : Nat) :
    ∃ entries : List OXM,
      (Match.scanFields fuel m rbuf n).recv.OXMFields = m.OXMFields ++ entries ∧
      (Match.scanFields fuel m rbuf n).recv.Typ = m.Typ ∧
      4 * entries.length ≤ rbuf.length := by
  induction fuel generalizing m rbuf n with
  | zero => exact ⟨[], by simp [Match.scanFields], rfl, by simp⟩
  | succ fuel ih =>
    by_cases h8 : rbuf.length < 8
    · rw [Match.scanFields_short _ _ _ _ h8]
      exact ⟨[], by simp, rfl, by simp⟩
    · rw [Match.scanFields_step _ _ _ _ (by omega)]
      cases hres : (OXM.ReadFrom OXM.zero rbuf).err with
      | some e => exact ⟨[], by simp, rfl, by simp⟩
      | none =>
        have hc := OXM.ReadFrom_consumes OXM.zero rbuf hres
        obtain ⟨entries, hent, htyp, hlen⟩ :=
          ih ⟨m.Typ, m.OXMFields ++ [(OXM.ReadFrom OXM.zero rbuf).recv]⟩
            (OXM.ReadFrom OXM.zero rbuf).rest (n + (OXM.ReadFrom OXM.zero rbuf).n)
        refine ⟨(OXM.ReadFrom OXM.zero rbuf).recv :: entries, ?_, htyp, ?_⟩
        · simp only [hent, List.append_assoc, List.singleton_append]
        · simp only [List.length_cons]
          omega

/-- A quarter of the length of the scratch buffer is enough fuel for the scan
loop. -/
theorem Match.scanFields_fuel_quarter (fuel k : Nat) (m : Match) (rbuf : List Nat)
    (n : Nat) (h : rbuf.length / 4 ≤ fuel) :
    Match.scanFields (fuel + k) m rbuf n = Match.scanFields fuel m rbuf n := by
  induction fuel generalizing m rbuf n with
  | zero =>
    have h0 : rbuf.length < 8 := by omega
    rw [Match.scanFields_short _ _ _ _ h0, Match.scanFields_short _ _ _ _ h0]
  | succ fuel ih =>
    by_cases h8 : rbuf.length < 8
    · rw [Match.scanFields_short _ _ _ _ h8, Match.scanFields_short _ _ _ _ h8]
    · have h8' : 8 ≤ rbuf.length := by omega
      rw [show fuel + 1 + k = (fuel + k) + 1 by omega,
        Match.scanFields_step _ _ _ _ h8', Match.scanFields_step _ _ _ _ h8']
      cases herr : (OXM.ReadFrom OXM.zero rbuf).err with
      | some e => rfl
      | none =>
        have hc := OXM.ReadFrom_consumes OXM.zero rbuf herr
        exact ih _ _ _ (by omega)

/-- C20: the scan loop of `Match.ReadFrom` terminates. An iteration on the
scratch buffer `rbuf` either ends with an error or leaves at least 4 bytes
fewer; `len(rbuf) / 4` iterations are enough (any further fuel leaves the
outcome unchanged), and the loop adds at most `len(rbuf) / 4` entries. For
every input `r`, `Match.ReadFrom` returns, and the number of OXM entries it
adds is at most a quarter of the declared length. -/
theorem Match_scan_terminates (m : Match) (rbuf r : List Nat) (n fuel k : Nat)
    (hfuel : rbuf.length / 4 ≤ fuel) :
    ((OXM.ReadFrom OXM.zero rbuf).err = none →
      (OXM.ReadFrom OXM.zero rbuf).rest.length + 4 ≤ rbuf.length) ∧
    Match.scanFields (fuel + k) m rbuf n = Match.scanFields fuel m rbuf n ∧
    (∃ entries : List OXM,
      (Match.scanFields fuel m rbuf n).recv.OXMFields = m.OXMFields ++ entries ∧
      entries.length ≤ rbuf.length / 4) ∧
    (∃ entries : List OXM,
      (Match.ReadFrom m r).recv.OXMFields = m.OXMFields ++ entries ∧
      4 * entries.length ≤ r.length ∧
      ∀ t1 t0 l1 l0 : Nat, ∀ tail : List Nat, r = t1 :: t0 :: l1 :: l0 :: tail →
        entries.length ≤ (l1 * 256 + l0) / 4) := by
  refine ⟨fun hok => ?_, Match.scanFields_fuel_quarter fuel k m rbuf n hfuel, ?_, ?_⟩
  · have hc := OXM.ReadFrom_consumes OXM.zero rbuf hok
    omega
  · obtain ⟨entries, hent, _, hlen⟩ := Match.scanFields_entries fuel m rbuf n
    exact ⟨entries, hent, by omega⟩
  · by_cases hr : r.length < 4
    · refine ⟨[], ?_, by simp, ?_⟩
      · rcases r with _ | ⟨a, _ | ⟨b, _ | ⟨c, _ | ⟨d, r1⟩⟩⟩⟩ <;>
          first
          | (simp only [List.length_cons] at hr; omega)
          | simp [Match.ReadFrom, binary.ReadSlice, binary.Read]
      · intro t1 t0 l1 l0 tail hrt
        rw [hrt] at hr
        simp only [List.length_cons] at hr
        omega
    · obtain ⟨t1, t0, l1, l0, r1, rfl⟩ : ∃ a b c d r1, r = a :: b :: c :: d :: r1 := by
        rcases r with _ | ⟨a, _ | ⟨b, _ | ⟨c, _ | ⟨d, r1⟩⟩⟩⟩
        · simp at hr
        · simp at hr
        · simp at hr
        · simp at hr
        · exact ⟨a, b, c, d, r1, rfl⟩
      rw [Match.ReadFrom_cons]
      by_cases hL : l1 * 256 + l0 ≤ r1.length
      · rw [binary.Read_ok _ _ hL]
        obtain ⟨entries, hent, _, hlen⟩ :=
          Match.scanFields_entries (r1.take (l1 * 256 + l0)).length
            ⟨t1 * 256 + t0, m.OXMFields⟩ (r1.take (l1 * 256 + l0)) (4 + (l1 * 256 + l0))
        have htake : (r1.take (l1 * 256 + l0)).length = l1 * 256 + l0 := by
          rw [List.length_take]; omega
        refine ⟨entries, hent, ?_, ?_⟩
        · simp only [List.length_cons]
          omega
        · intro a b c d tail hrt
          simp only [List.cons.injEq] at hrt
          obtain ⟨_, _, hc, hd, _⟩ := hrt
          subst hc hd
          omega
      · rw [binary.Read_short _ _ (Nat.lt_of_not_le hL)]
        refine ⟨[], by simp, by simp, ?_⟩
        intro a b c d tail _
        simp

/-- C20, witness: on 16 bytes holding two 8-byte entries the loop ends after
two iterations, with fuel 4 as with fuel 104, and adds two entries. -/
theorem Match_scan_terminates_witness :
    [0x80, 0, 0, 4, 1, 2, 3, 4, 0x80, 0, 2, 4, 5, 6, 7, 8].length / 4 ≤ 4 ∧
    Match.scanFields (4 + 100) Match.zero
        [0x80, 0, 0, 4, 1, 2, 3, 4, 0x80, 0, 2, 4, 5, 6, 7, 8] 0 =
      Match.scanFields 4 Match.zero
        [0x80, 0, 0, 4, 1, 2, 3, 4, 0x80, 0, 2, 4, 5, 6, 7, 8] 0 ∧
    Match.scanFields 4 Match.zero
        [0x80, 0, 0, 4, 1, 2, 3, 4, 0x80, 0, 2, 4, 5, 6, 7, 8] 0 =
      ⟨⟨0, [⟨0x8000, 0, [], [1, 2, 3, 4]⟩, ⟨0x8000, 1, [], [5, 6, 7, 8]⟩]⟩, [], 16, none⟩ :=
  ⟨by decide,
    (Match_scan_terminates Match.zero
      [0x80, 0, 0, 4, 1, 2, 3, 4, 0x80, 0, 2, 4, 5, 6, 7, 8] [] 0 4 100 (by decide)).2.1,
    by decide⟩

end ofp13
